import Mathlib

/-!
The shai sandbox launcher: resource-set normalization and sandbox configuration.

A shallow embedding of

* `internal/shai/runtime/config/normalize.go` (`NormalizeResourceSet`),
* `pkg/shai/resource_set.go` (the public resource-set types),
* `pkg/shai/sandbox_config.go` (`normalize`, `convertResourceSet`, `convertExec`,
  `runtimeConfig`, `LoadSandboxConfig` and its options),

and the properties the specification states about them.  The resolver and the call
aggregator of package `runtime` (`orderedResourcePaths`, `resolvedResources`,
`callEntriesFromResources`, `ValidateArgs`) are present through their tests only; they are
modelled from the specification, in agreement with those tests.

Go strings are modelled by `String` (text that is valid UTF-8).  In-place mutation
through a pointer is modelled by returning the state the pointee holds when the
function returns, next to the returned `error` (`none` is Go's `nil` error).
-/

set_option linter.dupNamespace false

namespace Shai

/-! ## Go standard library -/

/-- The syntax of a regular expression that compiles, in the form the development reasons
about: a regular expression `body` between an optional `^` and an optional `$`.  Expressions
of Go with assertions in other places have no such form. -/
structure RegexpSyntax where
  /-- Whether the expression starts with `^`. -/
  anchorStart : Bool
  /-- Whether the expression ends with `$`. -/
  anchorEnd : Bool
  /-- The regular expression between the anchors. -/
  body : RegularExpression Char

/-- The parts of the Go standard library that the code calls and whose tables or
grammars are outside the repository. -/
structure GoLib where
  /-- The table behind `unicode.ToLower` for runes above `unicode.MaxASCII`. -/
  unicodeLower : Char → Char
  /-- The text `fmt` prints for the verb `%q` (`strconv.Quote`). -/
  quote : String → String
  /-- The error text of `regexp.Compile` for an expression that does not parse, `none`
  for an expression that compiles. -/
  regexpSyntaxError : String → Option String
  /-- The result of `os.Getwd`: the directory, or the text of its error. -/
  getwd : Except String String
  /-- The function `filepath.Join` on two elements. -/
  filepathJoin : String → String → String
  /-- The constant `DefaultConfigRelPath`. -/
  DefaultConfigRelPath : String
  /-- The parser of `regexp/syntax`: the syntax of an expression that compiles. -/
  regexpSyntax : String → RegexpSyntax

/-- The predicate `unicode.IsSpace`: the Latin-1 spaces and the runes with the Unicode
property White_Space. -/
def isSpace (c : Char) : Bool :=
  let n := c.toNat
  n == 0x09 || n == 0x0A || n == 0x0B || n == 0x0C || n == 0x0D || n == 0x20 ||
  n == 0x85 || n == 0xA0 || n == 0x1680 || (0x2000 ≤ n && n ≤ 0x200A) ||
  n == 0x2028 || n == 0x2029 || n == 0x202F || n == 0x205F || n == 0x3000

/-- The function `strings.TrimSpace`: the string without its leading and trailing white
space. -/
def trimSpace (s : String) : String :=
  String.mk ((s.data.dropWhile isSpace).reverse.dropWhile isSpace).reverse

/-- The function `unicode.ToLower` on one rune: ASCII letters by arithmetic, every other
rune through the case table. -/
def toLowerRune (L : GoLib) (c : Char) : Char :=
  if c.toNat ≤ 0x7F then
    if 'A'.toNat ≤ c.toNat ∧ c.toNat ≤ 'Z'.toNat then Char.ofNat (c.toNat + 32) else c
  else L.unicodeLower c

/-- The function `strings.ToLower`: every rune mapped by `unicode.ToLower`. -/
def toLower (L : GoLib) (s : String) : String :=
  String.mk (s.data.map (toLowerRune L))

/-- A compiled `*regexp.Regexp`, which is determined by the expression it was compiled
from. -/
structure Regexp where
  expr : String
  deriving DecidableEq, Repr

/-- The function `regexp.Compile`. -/
def regexpCompile (L : GoLib) (expr : String) : Except String Regexp :=
  match L.regexpSyntaxError expr with
  | some e => .error e
  | none => .ok ⟨expr⟩

/-! ## Package config: resource sets -/

namespace Config

/-- Modelled from the spec: the declaration of `config.VarMapping` is not among the
sources; the fields are those `convertResourceSet` fills. -/
structure VarMapping where
  Source : String
  Target : String
  deriving DecidableEq, Repr

/-- Modelled from the spec: the declaration of `config.Mount` is not among the sources;
the fields are those `convertResourceSet` fills and `NormalizeResourceSet` uses. -/
structure Mount where
  Source : String
  Target : String
  Mode : String
  deriving DecidableEq, Repr

/-- Modelled from the spec: the declaration of `config.Call` is not among the sources; the
fields are those `convertResourceSet` fills, with the compiled matcher `allowedRx` that
`NormalizeResourceSet` attaches (`none` is the nil pointer). -/
structure Call where
  Name : String
  Description : String
  Command : String
  AllowedArgs : String
  allowedRx : Option Regexp
  deriving DecidableEq, Repr

/-- Modelled from the spec: the declaration of `config.Port` is not among the sources; the
fields are those `convertResourceSet` fills. -/
structure Port where
  Host : String
  Port : Int
  deriving DecidableEq, Repr

/-- Modelled from the spec: the declaration of `config.ResourceOptions` is not among the
sources; the field is the one `convertResourceSet` fills. -/
structure ResourceOptions where
  Privileged : Bool
  deriving DecidableEq, Repr

/-- Modelled from the spec: the declaration of `config.ResourceSet` is not among the
sources; the fields are those `convertResourceSet` fills. -/
structure ResourceSet where
  Vars : List VarMapping
  Mounts : List Mount
  Calls : List Call
  HTTP : List String
  Ports : List Port
  RootCommands : List String
  Options : ResourceOptions
  deriving DecidableEq, Repr

/-- The value of `prefix` in `NormalizeResourceSet`. -/
def labelPrefix (label : String) : String :=
  if trimSpace label ≠ "" then "resource " ++ label else "resource"

/-- The mode computed for one mount: trimmed, lower-cased, and `ro` when that is empty. -/
def mountMode (L : GoLib) (m : Mount) : String :=
  let mode := toLower L (trimSpace m.Mode)
  if mode = "" then "ro" else mode

/-- The loop over `res.Mounts` of `NormalizeResourceSet`, from index `i` on: the mounts as
the loop leaves them, and the error it returns with, if any. -/
def normalizeMounts (L : GoLib) (pfx : String) : Nat → List Mount → List Mount × Option String
  | _, [] => ([], none)
  | i, m :: rest =>
    let mode := mountMode L m
    if mode ≠ "ro" ∧ mode ≠ "rw" then
      (m :: rest,
        some (pfx ++ " mount[" ++ toString i ++ "] has invalid mode " ++ L.quote m.Mode))
    else
      let r := normalizeMounts L pfx (i + 1) rest
      ({ m with Mode := mode } :: r.1, r.2)

/-- The loop over `res.Calls` of `NormalizeResourceSet`, from index `i` on: the calls as
the loop leaves them, and the error it returns with, if any. -/
def normalizeCalls (L : GoLib) (pfx : String) : Nat → List Call → List Call × Option String
  | _, [] => ([], none)
  | i, c :: rest =>
    if trimSpace c.Name = "" then
      (c :: rest, some (pfx ++ " call[" ++ toString i ++ "] missing name"))
    else if trimSpace c.Command = "" then
      (c :: rest, some (pfx ++ " call[" ++ toString i ++ "] missing command"))
    else if c.AllowedArgs ≠ "" then
      match regexpCompile L c.AllowedArgs with
      | .error err =>
        (c :: rest,
          some (pfx ++ " call[" ++ c.Name ++ "] invalid allowed-args regex: " ++ err))
      | .ok rx =>
        let r := normalizeCalls L pfx (i + 1) rest
        ({ c with allowedRx := some rx } :: r.1, r.2)
    else
      let r := normalizeCalls L pfx (i + 1) rest
      (c :: r.1, r.2)

/-- The function `NormalizeResourceSet`.  The first component is the resource set behind
the pointer `res` when the function returns (`none` for a nil pointer), the second the
returned error. -/
def NormalizeResourceSet (L : GoLib) (res : Option ResourceSet) (label : String) :
    Option ResourceSet × Option String :=
  match res with
  | none => (none, none)
  | some r =>
    let pfx := labelPrefix label
    let ms := normalizeMounts L pfx 0 r.Mounts
    match ms.2 with
    | some e => (some { r with Mounts := ms.1 }, some e)
    | none =>
      let cs := normalizeCalls L pfx 0 r.Calls
      (some { r with Mounts := ms.1, Calls := cs.1 }, cs.2)

/-! ### Vocabulary of the statements -/

/-- A mount mode the normalizer accepts: trimmed and lower-cased it is empty, `ro` or
`rw`, which is to say that the computed mode is `ro` or `rw`. -/
def mountValid (L : GoLib) (m : Mount) : Prop :=
  mountMode L m = "ro" ∨ mountMode L m = "rw"

instance (L : GoLib) (m : Mount) : Decidable (mountValid L m) := by
  unfold mountValid; infer_instance

/-- The mount with its mode replaced by the canonical one. -/
def canonMount (L : GoLib) (m : Mount) : Mount :=
  { m with Mode := mountMode L m }

/-- Whether an expression compiles as a regular expression. -/
def compiles (L : GoLib) (expr : String) : Bool :=
  match regexpCompile L expr with
  | .ok _ => true
  | .error _ => false

/-- A call the normalizer accepts: name and command are not blank, and the allowed-args
expression is empty or compiles. -/
def callValid (L : GoLib) (c : Call) : Prop :=
  trimSpace c.Name ≠ "" ∧ trimSpace c.Command ≠ "" ∧
    (c.AllowedArgs = "" ∨ compiles L c.AllowedArgs = true)

instance (L : GoLib) (c : Call) : Decidable (callValid L c) := by
  unfold callValid; infer_instance

/-- The call with the matcher compiled from its allowed-args expression attached, when
that expression is not empty. -/
def attachRx (c : Call) : Call :=
  if c.AllowedArgs ≠ "" then { c with allowedRx := some ⟨c.AllowedArgs⟩ } else c

end Config

/-! ## Package runtime: what `runtimeConfig` produces, and path ordering -/

namespace Runtime

/-- Modelled from the spec: the declaration of `runtime.ExecSpec` is not among the sources;
the fields are those `convertExec` fills.  A map is modelled by the list of its entries. -/
structure ExecSpec where
  Command : List String
  Env : List (String × String)
  Workdir : String
  UseTTY : Bool
  deriving DecidableEq, Repr

/-- Modelled from the spec: the declaration of `runtime.EphemeralConfig` is not among the
sources; the fields are those `runtimeConfig` fills.  An `io.Writer` is modelled by the
identity of the writer (`none` is the nil interface), a `time.Duration` by its count of
nanoseconds. -/
structure EphemeralConfig where
  WorkingDir : String
  ConfigFile : String
  TemplateVars : List (String × String)
  ReadWritePaths : List String
  ResourceSets : List String
  PrependResourceSet : Option Config.ResourceSet
  AppendResourceSet : Option Config.ResourceSet
  Verbose : Bool
  PostSetupExec : Option ExecSpec
  Stdout : Option Nat
  Stderr : Option Nat
  GracefulStopTimeout : Int
  ImageOverride : String
  UserOverride : String
  HostUID : String
  HostGID : String
  Privileged : Bool
  ShowProgress : Bool
  ShowScriptOutput : Bool
  deriving DecidableEq, Repr

/-- Modelled from the spec: the depth of a path, which `orderedResourcePaths` sorts by.  The
function is not among the sources and the spec fixes only that the root path `.` sorts
first; the depth is taken as `0` for `.` and as one more than the number of slashes
otherwise, which is the number of path elements of a clean relative path such as `a/b`. -/
def pathDepth (p : String) : Nat :=
  if p = "." then 0 else (p.data.filter (fun c => c == '/')).length + 1

/-- Modelled from the spec: "Deduplicate `queryPaths` preserving first-occurrence order":
every path is kept where it first occurs and dropped from the rest of the list. -/
def dedupPaths : List String → List String
  | [] => []
  | p :: ps => p :: (dedupPaths ps).filter (fun q => q ≠ p)

/-- Modelled from the spec: one step of the stable sort "by path depth ascending": the path
goes before the first path that is not shallower. -/
def insertByDepth (p : String) : List String → List String
  | [] => [p]
  | q :: qs => if pathDepth p ≤ pathDepth q then p :: q :: qs else q :: insertByDepth p qs

/-- Modelled from the spec: "stably sort by path depth ascending (the root path `.` always
sorts first; paths with equal depth retain their relative first-occurrence order)". -/
def sortByDepth : List String → List String
  | [] => []
  | p :: ps => insertByDepth p (sortByDepth ps)

/-- Modelled from the spec: the function `orderedResourcePaths` is not among the sources
(only `TestOrderedResourcePaths` is).  Section 4.2, step 1: "Deduplicate `queryPaths`
preserving first-occurrence order, then stably sort by path depth ascending". -/
def orderedResourcePaths (paths : List String) : List String :=
  sortByDepth (dedupPaths paths)

/-- The order of the result: by depth, and among paths of one depth by `before`. -/
def depthThen (before : String → String → Prop) (a b : String) : Prop :=
  pathDepth a < pathDepth b ∨ (pathDepth a = pathDepth b ∧ before a b)

end Runtime

/-! ## Package shai: the public types and the sandbox configuration -/

namespace Pkg

/-- The type `VarMapping` of `resource_set.go`. -/
structure VarMapping where
  Source : String
  Target : String
  deriving DecidableEq, Repr

/-- The type `Mount` of `resource_set.go`. -/
structure Mount where
  Source : String
  Target : String
  Mode : String
  deriving DecidableEq, Repr

/-- The type `Call` of `resource_set.go`. -/
structure Call where
  Name : String
  Description : String
  Command : String
  AllowedArgs : String
  deriving DecidableEq, Repr

/-- The type `Port` of `resource_set.go`. -/
structure Port where
  Host : String
  Port : Int
  deriving DecidableEq, Repr

/-- The type `ResourceOptions` of `resource_set.go`. -/
structure ResourceOptions where
  Privileged : Bool
  deriving DecidableEq, Repr

/-- The type `ResourceSet` of `resource_set.go`. -/
structure ResourceSet where
  Vars : List VarMapping
  Mounts : List Mount
  Calls : List Call
  HTTP : List String
  Ports : List Port
  RootCommands : List String
  Options : ResourceOptions
  deriving DecidableEq, Repr

/-- The type `SandboxExec` of `sandbox_config.go`. -/
structure SandboxExec where
  Command : List String
  Env : List (String × String)
  Workdir : String
  UseTTY : Bool
  deriving DecidableEq, Repr

/-- The type `SandboxConfig` of `sandbox_config.go`. -/
structure SandboxConfig where
  WorkingDir : String
  ConfigFile : String
  TemplateVars : List (String × String)
  ReadWritePaths : List String
  ResourceSets : List String
  PrependResourceSet : Option ResourceSet
  AppendResourceSet : Option ResourceSet
  Verbose : Bool
  PostSetupExec : Option SandboxExec
  Stdout : Option Nat
  Stderr : Option Nat
  GracefulStopTimeout : Int
  ImageOverride : String
  UserOverride : String
  HostUID : String
  HostGID : String
  Privileged : Bool
  ShowProgress : Bool
  ShowScriptOutput : Bool
  deriving DecidableEq, Repr

/-- The zero value `SandboxConfig{}`. -/
def SandboxConfig.zero : SandboxConfig :=
  { WorkingDir := "", ConfigFile := "", TemplateVars := [], ReadWritePaths := [],
    ResourceSets := [], PrependResourceSet := none, AppendResourceSet := none,
    Verbose := false, PostSetupExec := none, Stdout := none, Stderr := none,
    GracefulStopTimeout := 0, ImageOverride := "", UserOverride := "", HostUID := "",
    HostGID := "", Privileged := false, ShowProgress := false, ShowScriptOutput := false }

/-- The method `(*SandboxConfig).normalize`: the configuration behind the receiver when the
method returns (`none` for a nil receiver), and the returned error. -/
def SandboxConfig.normalize (L : GoLib) :
    Option SandboxConfig → Option SandboxConfig × Option String
  | none => (none, none)
  | some cfg =>
    let step : Except String SandboxConfig :=
      if trimSpace cfg.WorkingDir = "" then
        match L.getwd with
        | .error err => .error err
        | .ok wd => .ok { cfg with WorkingDir := wd }
      else .ok cfg
    match step with
    | .error err => (some cfg, some err)
    | .ok cfg1 =>
      if trimSpace cfg1.ConfigFile = "" then
        (some { cfg1 with
            ConfigFile := L.filepathJoin cfg1.WorkingDir L.DefaultConfigRelPath }, none)
      else (some cfg1, none)

/-- The function `LoadSandboxConfig`.  An option is a function on the configuration, `none`
a nil option. -/
def LoadSandboxConfig (L : GoLib) (workspace : String)
    (opts : List (Option (SandboxConfig → SandboxConfig))) : Except String SandboxConfig :=
  let cfg0 : SandboxConfig := { SandboxConfig.zero with WorkingDir := workspace }
  let cfg := opts.foldl (fun c opt => match opt with
    | some f => f c
    | none => c) cfg0
  match SandboxConfig.normalize L (some cfg) with
  | (_, some err) => .error err
  | (some cfg1, none) => .ok cfg1
  | (none, none) => .ok cfg

/-- The configuration `LoadSandboxConfig` holds after the options have run and before it
calls `normalize`. -/
def configured (workspace : String)
    (opts : List (Option (SandboxConfig → SandboxConfig))) : SandboxConfig :=
  opts.foldl (fun c opt => match opt with
    | some f => f c
    | none => c) { SandboxConfig.zero with WorkingDir := workspace }

/-- The option `WithConfigFile`. -/
def WithConfigFile (path : String) : Option (SandboxConfig → SandboxConfig) :=
  some (fun cfg => { cfg with ConfigFile := path })

/-- The option `WithTemplateVars`. -/
def WithTemplateVars (vars : List (String × String)) : Option (SandboxConfig → SandboxConfig) :=
  some (fun cfg => { cfg with TemplateVars := vars })

/-- The option `WithResourceSets`. -/
def WithResourceSets (names : List String) : Option (SandboxConfig → SandboxConfig) :=
  some (fun cfg => { cfg with ResourceSets := names })

/-- The option `WithPrependResourceSet`. -/
def WithPrependResourceSet (set : Option ResourceSet) : Option (SandboxConfig → SandboxConfig) :=
  some (fun cfg => { cfg with PrependResourceSet := set })

/-- The option `WithAppendResourceSet`. -/
def WithAppendResourceSet (set : Option ResourceSet) : Option (SandboxConfig → SandboxConfig) :=
  some (fun cfg => { cfg with AppendResourceSet := set })

/-- The option `WithReadWritePaths`. -/
def WithReadWritePaths (paths : List String) : Option (SandboxConfig → SandboxConfig) :=
  some (fun cfg => { cfg with ReadWritePaths := paths })

/-- The option `WithStdout`. -/
def WithStdout (w : Option Nat) : Option (SandboxConfig → SandboxConfig) :=
  some (fun cfg => { cfg with Stdout := w })

/-- The option `WithStderr`. -/
def WithStderr (w : Option Nat) : Option (SandboxConfig → SandboxConfig) :=
  some (fun cfg => { cfg with Stderr := w })

/-- The option `WithImageOverride`. -/
def WithImageOverride (image : String) : Option (SandboxConfig → SandboxConfig) :=
  some (fun cfg => { cfg with ImageOverride := image })

/-- The option `WithUserOverride`. -/
def WithUserOverride (user : String) : Option (SandboxConfig → SandboxConfig) :=
  some (fun cfg => { cfg with UserOverride := user })

/-- The option `WithVerbose`. -/
def WithVerbose (verbose : Bool) : Option (SandboxConfig → SandboxConfig) :=
  some (fun cfg => { cfg with Verbose := verbose })

/-- The option `WithGracefulStopTimeout`. -/
def WithGracefulStopTimeout (d : Int) : Option (SandboxConfig → SandboxConfig) :=
  some (fun cfg => { cfg with GracefulStopTimeout := d })

/-- The option `WithShowScriptOutput`. -/
def WithShowScriptOutput (enabled : Bool) : Option (SandboxConfig → SandboxConfig) :=
  some (fun cfg => { cfg with ShowScriptOutput := enabled })

/-- The function `convertExec`. -/
def convertExec (exec : Option SandboxExec) : Option Runtime.ExecSpec :=
  match exec with
  | none => none
  | some e => some { Command := e.Command, Env := e.Env, Workdir := e.Workdir, UseTTY := e.UseTTY }

/-- The field-by-field copy `convertResourceSet` builds before it normalizes: `make` and
the filling loop are a map over the slice, `append([]string{}, xs...)` a copy. -/
def copyResourceSet (set : ResourceSet) : Config.ResourceSet :=
  { Vars := set.Vars.map (fun vm => { Source := vm.Source, Target := vm.Target }),
    Mounts := set.Mounts.map (fun m => { Source := m.Source, Target := m.Target, Mode := m.Mode }),
    Calls := set.Calls.map (fun c =>
      { Name := c.Name, Description := c.Description, Command := c.Command,
        AllowedArgs := c.AllowedArgs, allowedRx := none }),
    HTTP := [] ++ set.HTTP,
    Ports := set.Ports.map (fun p => { Host := p.Host, Port := p.Port }),
    RootCommands := [] ++ set.RootCommands,
    Options := { Privileged := set.Options.Privileged } }

/-- The function `convertResourceSet`. -/
def convertResourceSet (L : GoLib) (set : Option ResourceSet) (label : String) :
    Except String (Option Config.ResourceSet) :=
  match set with
  | none => .ok none
  | some s =>
    let out := copyResourceSet s
    match Config.NormalizeResourceSet L (some out) label with
    | (_, some err) => .error err
    | (out1, none) => .ok out1

/-- The method `SandboxConfig.runtimeConfig`. -/
def SandboxConfig.runtimeConfig (L : GoLib) (cfg : SandboxConfig) :
    Except String Runtime.EphemeralConfig :=
  let normalized := ((SandboxConfig.normalize L (some cfg)).1).getD cfg
  match convertResourceSet L normalized.PrependResourceSet "prepend" with
  | .error err => .error err
  | .ok prepend =>
    match convertResourceSet L normalized.AppendResourceSet "append" with
    | .error err => .error err
    | .ok appendSet =>
      .ok { WorkingDir := normalized.WorkingDir,
            ConfigFile := normalized.ConfigFile,
            TemplateVars := normalized.TemplateVars,
            ReadWritePaths := normalized.ReadWritePaths,
            ResourceSets := normalized.ResourceSets,
            PrependResourceSet := prepend,
            AppendResourceSet := appendSet,
            Verbose := normalized.Verbose,
            PostSetupExec := convertExec normalized.PostSetupExec,
            Stdout := normalized.Stdout,
            Stderr := normalized.Stderr,
            GracefulStopTimeout := normalized.GracefulStopTimeout,
            ImageOverride := normalized.ImageOverride,
            UserOverride := normalized.UserOverride,
            HostUID := normalized.HostUID,
            HostGID := normalized.HostGID,
            Privileged := normalized.Privileged,
            ShowProgress := normalized.ShowProgress,
            ShowScriptOutput := normalized.ShowScriptOutput }

/-- A public resource set whose mount has a mode that is not accepted. -/
def badPublicSet : ResourceSet :=
  { Vars := [], Mounts := [⟨"/tmp", "/mnt", "bad"⟩], Calls := [], HTTP := [], Ports := [],
    RootCommands := [], Options := ⟨false⟩ }

/-- A public resource set that is accepted. -/
def goodPublicSet : ResourceSet :=
  { Vars := [⟨"FOO", "BAR"⟩], Mounts := [⟨"/tmp", "/mnt", " RW"⟩],
    Calls := [⟨"deploy", "ships", "./scripts/deploy.sh", "^--env=(dev|prod)$"⟩],
    HTTP := ["prepend.example"], Ports := [⟨"db", 5432⟩], RootCommands := ["apt-get"],
    Options := ⟨true⟩ }

/-- A configuration with an accepted prepend set and a rejected append set. -/
def badAppendConfig : SandboxConfig :=
  { SandboxConfig.zero with
    WorkingDir := "/workspace", ConfigFile := "/workspace/.shai/config.yaml",
    PrependResourceSet := some goodPublicSet, AppendResourceSet := some badPublicSet }

/-- The prepend set of `TestRuntimeConfigConversion`. -/
def conversionPrepend : ResourceSet :=
  { Vars := [], Mounts := [], Calls := [], HTTP := ["prepend.example"], Ports := [],
    RootCommands := [], Options := ⟨false⟩ }

/-- The append set of `TestRuntimeConfigConversion`. -/
def conversionAppend : ResourceSet :=
  { Vars := [], Mounts := [], Calls := [], HTTP := ["append.example"], Ports := [],
    RootCommands := [], Options := ⟨false⟩ }

/-- The configuration of `TestRuntimeConfigConversion`. -/
def conversionConfig : SandboxConfig :=
  { SandboxConfig.zero with
    WorkingDir := "/workspace"
    ConfigFile := "/workspace/.shai/config.yaml"
    ReadWritePaths := ["."]
    PrependResourceSet := some conversionPrepend
    AppendResourceSet := some conversionAppend
    PostSetupExec := some ⟨["echo", "hi"], [("FOO", "bar")], "/src", true⟩ }

end Pkg

/-! ## The resolver and the call aggregator -/

namespace Config

/-- Modelled from the spec: the type `ApplyRule` is not among the sources.  Section 3: a
scope path, the ordered list of resource-set names to activate for that scope, and an
optional image override (empty when absent). -/
structure ApplyRule where
  Path : String
  Resources : List String
  Image : String
  deriving DecidableEq, Repr

/-- Modelled from the spec: the type `Config` is not among the sources.  Section 6: a
default image, a mapping from resource-set name to resource set (a list of entries, looked
up by name), and the ordered list of apply rules. -/
structure Config where
  Image : String
  Resources : List (String × ResourceSet)
  Apply : List ApplyRule
  deriving DecidableEq, Repr

/-- Modelled from the spec: the type `ResolvedResource` is not among the sources; the
fields are those `TestCallEntriesFromResources` fills: the name and the pointer to the
resource set (`none` is nil). -/
structure ResolvedResource where
  Name : String
  Spec : Option ResourceSet
  deriving DecidableEq, Repr

/-- Modelled from the spec: the type `CallEntry` is not among the sources.  Section 3: "the
externally consumable form of a `Call`, exposing an argument-validation operation": the
fields of the call, with the compiled matcher the validation uses. -/
structure CallEntry where
  Name : String
  Description : String
  Command : String
  AllowedArgs : String
  allowedRx : Option Regexp
  deriving DecidableEq, Repr

end Config

namespace Runtime

open Config

/-- Modelled from the spec: the pieces of a path between its slashes; the functions that
take paths apart are not among the sources. -/
def splitSlash : List Char → List (List Char)
  | [] => [[]]
  | c :: cs =>
    if c = '/' then [] :: splitSlash cs
    else
      match splitSlash cs with
      | [] => [[c]]
      | e :: es => (c :: e) :: es

/-- Modelled from the spec: the elements of a path, relative to the configuration root:
the pieces between slashes without the empty ones and without `.`, so that the root path
`.` (written `./` in the rules of the tests) has none and `./bar/baz` has `bar`, `baz`. -/
def pathElems (p : String) : List String :=
  ((splitSlash p.data).filter (fun e => e ≠ [] ∧ e ≠ ['.'])).map String.mk

/-- Modelled from the spec: a rule matches a query path when its scope path is that path or
an ancestor of it ("exact or ancestor match"). -/
def ruleMatches (rule : ApplyRule) (q : String) : Bool :=
  (pathElems rule.Path).isPrefixOf (pathElems q)

/-- Modelled from the spec: "the most specific matching `ApplyRule`, the one whose scope
path is the longest": among the matching rules one with the most path elements, the first
declared of them. -/
def mostSpecific (q : String) : List ApplyRule → Option ApplyRule
  | [] => none
  | r :: rs =>
    match mostSpecific q rs with
    | none => if ruleMatches r q then some r else none
    | some b =>
      if ruleMatches r q ∧ (pathElems b.Path).length ≤ (pathElems r.Path).length then some r
      else some b

/-- Modelled from the spec: section 4.2, step 4: for each query path in the order of the
caller, the image of its most specific matching rule if set; the first that is not empty
wins.  When none is, the result is empty: `TestResolvedResourcesWithExtraSets` expects the
empty image from a configuration whose default image is `example`. -/
def imageOverride (cfg : Config) : List String → String
  | [] => ""
  | q :: qs =>
    match mostSpecific q cfg.Apply with
    | some r => if r.Image ≠ "" then r.Image else imageOverride cfg qs
    | none => imageOverride cfg qs

/-- Modelled from the spec: section 4.2, step 2, second case: "for each ordered query path,
collect the `resources` lists of every `ApplyRule` whose scope path matches that query
path, in rule-declaration order, and concatenate across paths". -/
def discoveredNames (cfg : Config) (paths : List String) : List String :=
  (paths.map (fun q =>
    ((cfg.Apply.filter (fun r => ruleMatches r q)).map (fun r => r.Resources)).flatten)).flatten

/-- Modelled from the spec: section 4.2, steps 2 and 3: one entry per activated name, with
the resource set fetched from the mapping of the configuration; "an unknown name fails with
`UnknownResourceSet`, naming the missing set". -/
def lookupSets (cfg : Config) : List String → Except String (List ResolvedResource)
  | [] => .ok []
  | n :: ns =>
    match cfg.Resources.lookup n with
    | none => .error ("unknown resource set " ++ n)
    | some s =>
      match lookupSets cfg ns with
      | .error e => .error e
      | .ok rs => .ok ({ Name := n, Spec := some s } :: rs)

/-- Modelled from the spec: section 4.2, step 3: "`[prependSet if non-nil]`": the entry of an
anonymous set, named by its label, and no entry for a nil set. -/
def anonymousEntry (label : String) (set : Option ResourceSet) : List ResolvedResource :=
  match set with
  | none => []
  | some s => [{ Name := label, Spec := some s }]

/-- Modelled from the spec: the function `resolvedResources` is not among the sources (only
its tests are).  Section 4.2: the query paths are ordered; the activated names are the
explicit names when there are any and the discovered ones otherwise; the result is the
prepend set, if any, the entries of the names, and the append set, if any, the two
anonymous sets normalized under the labels `prepend` and `append`, a failure of which
"aborts resolution with the underlying error"; with the names and the image. -/
def resolvedResources (L : GoLib) (cfg : Config) (queryPaths explicit : List String)
    (prependSet appendSet : Option ResourceSet) :
    Except String (List ResolvedResource × List String × String) :=
  let paths := orderedResourcePaths queryPaths
  let names := if explicit ≠ [] then explicit else discoveredNames cfg paths
  match lookupSets cfg names with
  | .error e => .error e
  | .ok entries =>
    match NormalizeResourceSet L prependSet "prepend" with
    | (_, some e) => .error e
    | (pre, none) =>
      match NormalizeResourceSet L appendSet "append" with
      | (_, some e) => .error e
      | (app, none) =>
        .ok (anonymousEntry "prepend" pre ++ entries ++ anonymousEntry "append" app, names,
          imageOverride cfg queryPaths)

/-- Modelled from the spec: the entry of one call, which carries the compiled matcher of the
call (section 4.3: "if the call has no compiled matcher, always succeeds").  The resource
sets of `TestCallEntriesFromResources` were never normalized and the test expects the
expression enforced, so a call with allowed-args gets its matcher here the way lines 35 to
41 of `normalize.go` attach it, and an expression that does not compile is the error of the
aggregation; a call without allowed-args keeps the matcher it carries. -/
def callEntry (L : GoLib) (c : Call) : Except String CallEntry :=
  if c.AllowedArgs ≠ "" then
    match regexpCompile L c.AllowedArgs with
    | .error err => .error ("call " ++ c.Name ++ ": invalid allowed-args regex: " ++ err)
    | .ok rx =>
      .ok { Name := c.Name, Description := c.Description, Command := c.Command,
            AllowedArgs := c.AllowedArgs, allowedRx := some rx }
  else
    .ok { Name := c.Name, Description := c.Description, Command := c.Command,
          AllowedArgs := c.AllowedArgs, allowedRx := c.allowedRx }

/-- The entry of a call whose expression, if it has one, compiles: the fields of the call
with the matcher of its allowed-args, or the matcher the call carries when it has no
allowed-args. -/
def entryOf (c : Call) : CallEntry :=
  { Name := c.Name, Description := c.Description, Command := c.Command,
    AllowedArgs := c.AllowedArgs,
    allowedRx := if c.AllowedArgs = "" then c.allowedRx else some ⟨c.AllowedArgs⟩ }

/-- Modelled from the spec: "insert or overwrite the entry keyed by call name into the
result mapping".  The mapping is the list of its entries; an overwritten entry keeps its
place. -/
def upsertEntry (e : CallEntry) : List CallEntry → List CallEntry
  | [] => [e]
  | x :: xs => if x.Name = e.Name then e :: xs else x :: upsertEntry e xs

/-- Modelled from the spec: the loop of the aggregation over calls in application order. -/
def aggregateCalls (L : GoLib) : List CallEntry → List Call → Except String (List CallEntry)
  | acc, [] => .ok acc
  | acc, c :: cs =>
    match callEntry L c with
    | .error e => .error e
    | .ok en => aggregateCalls L (upsertEntry en acc) cs

/-- Modelled from the spec: section 4.3: "each call in each set's `calls`": the calls of the
resolved resources in application order, the resources in their order and the calls of one
resource in theirs; a resource without resource set has none. -/
def resourceCalls (resources : List ResolvedResource) : List Call :=
  (resources.map (fun r =>
    match r.Spec with
    | none => []
    | some s => s.Calls)).flatten

/-- Modelled from the spec: the function `callEntriesFromResources` is not among the sources
(only its test is).  Section 4.3: "Iterate `resolvedResources` in the order produced by
4.2.  For each call in each set's `calls`, insert or overwrite the entry keyed by call name
into the result mapping; later sets overwrite earlier ones with the same name". -/
def callEntriesFromResources (L : GoLib) (resources : List ResolvedResource) :
    Except String (List CallEntry) :=
  aggregateCalls L [] (resourceCalls resources)

end Runtime

/-- The regular expression of a literal text. -/
def literal (s : String) : RegularExpression Char :=
  s.data.foldr (fun c r => RegularExpression.char c * r) 1

/-- The syntax of a few expressions, for evaluating the definitions on concrete inputs. -/
def sampleSyntax (e : String) : RegexpSyntax :=
  if e = "^--env=(dev|prod)$" then
    ⟨true, true, literal "--env=" * (literal "dev" + literal "prod")⟩
  else if e = "dev|prod" then ⟨false, false, literal "dev" + literal "prod"⟩
  else if e = "^a$" then ⟨true, true, literal "a"⟩
  else ⟨false, false, literal e⟩

/-- A library instance for evaluating the definitions on concrete inputs: the identity for
the non-ASCII case table, an expression counts as not parsing when it is `(`, and the
syntax of the expressions is that of `sampleSyntax`. -/
def sampleLib : GoLib where
  unicodeLower := id
  quote := fun s => "\"" ++ s ++ "\""
  regexpSyntaxError := fun e =>
    if e = "(" then some "error parsing regexp: missing closing ): (" else none
  getwd := .ok "/home/dev"
  filepathJoin := fun a b => a ++ "/" ++ b
  DefaultConfigRelPath := ".shai/config.yaml"
  regexpSyntax := sampleSyntax

/-- A library instance in which the lookup of the working directory fails. -/
def noWdLib : GoLib :=
  { sampleLib with getwd := .error "getwd: no such file or directory" }

namespace Config

/-! ### Sample resource sets -/

/-- A resource set the normalizer accepts, with modes in several spellings. -/
def sampleSet : ResourceSet :=
  { Vars := [⟨"FOO", "BAR"⟩],
    Mounts := [⟨"/tmp", "/mnt", " RW "⟩, ⟨"/a", "/b", ""⟩, ⟨"/c", "/d", "Ro"⟩, ⟨"/e", "/f", " \t"⟩],
    Calls := [⟨"deploy", "", "./scripts/deploy.sh", "^--env=(dev|prod)$", none⟩,
      ⟨"git-sync", "pulls", "git pull", "", none⟩],
    HTTP := ["example.com"],
    Ports := [⟨"db", 5432⟩],
    RootCommands := ["apt-get"],
    Options := ⟨false⟩ }

/-- A resource set whose second mount has a mode that is not accepted. -/
def badModeSet : ResourceSet :=
  { Vars := [], Mounts := [⟨"/tmp", "/mnt", "RW"⟩, ⟨"/tmp", "/mnt", "bad"⟩],
    Calls := [], HTTP := [], Ports := [], RootCommands := [], Options := ⟨false⟩ }

/-- A resource set whose second call has no command. -/
def blankCallSet : ResourceSet :=
  { Vars := [], Mounts := [⟨"/tmp", "/mnt", "rw"⟩],
    Calls := [⟨"do", "", "echo hi", "", none⟩, ⟨"other", "", "  ", "", none⟩],
    HTTP := [], Ports := [], RootCommands := [], Options := ⟨false⟩ }

/-- A resource set whose second call has an expression that does not compile. -/
def badRegexSet : ResourceSet :=
  { Vars := [], Mounts := [⟨"/tmp", "/mnt", "rw"⟩],
    Calls := [⟨"first", "", "echo hi", "^a$", none⟩, ⟨"do", "", "echo hi", "(", none⟩],
    HTTP := [], Ports := [], RootCommands := [], Options := ⟨false⟩ }

/-- A resource set as a second normalization finds it after the expression of its call was
cleared: the allowed-args are empty and the matcher of the first normalization is there. -/
def staleMatcherSet : ResourceSet :=
  { Vars := [], Mounts := [],
    Calls := [⟨"do", "", "echo hi", "", some ⟨"^a$"⟩⟩, ⟨"blank", "", "echo hi", " ", none⟩],
    HTTP := [], Ports := [], RootCommands := [], Options := ⟨false⟩ }

/-- A resource set with an invalid mount and, in one call, a blank name, a blank command and
an expression that does not compile. -/
def manyViolationsSet : ResourceSet :=
  { Vars := [], Mounts := [⟨"/tmp", "/mnt", "rw"⟩, ⟨"/tmp", "/mnt", "bad"⟩],
    Calls := [⟨"ok", "", "echo hi", "", none⟩, ⟨" ", "", "", "(", none⟩],
    HTTP := [], Ports := [], RootCommands := [], Options := ⟨false⟩ }

/-- The calls of `manyViolationsSet` without its invalid mount. -/
def callViolationsSet : ResourceSet :=
  { manyViolationsSet with Mounts := [⟨"/tmp", "/mnt", "RW"⟩] }

/-! ### Error precedence, as the specification words it -/

/-- The violation of the mount at index `i`, if it has one: its mode is not accepted. -/
def mountViolation (L : GoLib) (pfx : String) (i : Nat) (m : Mount) : Option String :=
  if mountValid L m then none
  else some (pfx ++ " mount[" ++ toString i ++ "] has invalid mode " ++ L.quote m.Mode)

/-- The first violation of the call at index `j`, if it has one: the name is checked before
the command, the command before the allowed-args expression. -/
def callViolation (L : GoLib) (pfx : String) (j : Nat) (c : Call) : Option String :=
  if trimSpace c.Name = "" then some (pfx ++ " call[" ++ toString j ++ "] missing name")
  else if trimSpace c.Command = "" then
    some (pfx ++ " call[" ++ toString j ++ "] missing command")
  else if c.AllowedArgs = "" then none
  else
    match regexpCompile L c.AllowedArgs with
    | .error err => some (pfx ++ " call[" ++ c.Name ++ "] invalid allowed-args regex: " ++ err)
    | .ok _ => none

/-- The first violation of a resource set in the order: all mounts by ascending index, then
all calls by ascending index. -/
def firstViolation (L : GoLib) (r : ResourceSet) (label : String) : Option String :=
  ((r.Mounts.enum.map (fun p => mountViolation L (labelPrefix label) p.1 p.2)) ++
    (r.Calls.enum.map (fun p => callViolation L (labelPrefix label) p.1 p.2))).findSome? id

end Config

namespace Runtime

open Config

/-! ### Sample configurations -/

/-- The resource set `base` of `TestResolvedResourcesWithExtraSets`. -/
def baseSet : ResourceSet :=
  { Vars := [⟨"FOO", "BAR"⟩], Mounts := [], Calls := [], HTTP := [], Ports := [],
    RootCommands := [], Options := ⟨false⟩ }

/-- The resource set `opt` of `TestResolvedResourcesWithExtraSets`, which is also the append
set of `TestResolvedResourcesWithAppendSet`. -/
def optSet : ResourceSet :=
  { Vars := [], Mounts := [], Calls := [], HTTP := ["example.com"], Ports := [],
    RootCommands := [], Options := ⟨false⟩ }

/-- The resource set `another` of `TestResolvedResourcesWithExtraSets`. -/
def emptySet : ResourceSet :=
  { Vars := [], Mounts := [], Calls := [], HTTP := [], Ports := [],
    RootCommands := [], Options := ⟨false⟩ }

/-- The prepend set of `TestResolvedResourcesWithPrependSet`. -/
def prependExampleSet : ResourceSet :=
  { Vars := [], Mounts := [], Calls := [], HTTP := ["prepend.example"], Ports := [],
    RootCommands := [], Options := ⟨false⟩ }

/-- The configuration of `TestResolvedResourcesWithExtraSets`. -/
def extraSetsConfig : Config :=
  { Image := "example",
    Resources := [("base", baseSet), ("opt", optSet), ("another", emptySet)],
    Apply := [⟨"./", ["base"], ""⟩] }

/-- The configuration of `TestResolvedResourcesImageOverrideByOverlay`. -/
def overlayConfig : Config :=
  { Image := "example",
    Resources := [("base", emptySet)],
    Apply := [⟨"./", ["base"], ""⟩, ⟨"./foo", ["base"], "foo-image"⟩,
      ⟨"./bar", ["base"], "bar-image"⟩] }

/-- The configuration of `TestResolvedResourcesImageOverridePrefersSpecificPath`. -/
def nestedConfig : Config :=
  { Image := "example",
    Resources := [("base", emptySet)],
    Apply := [⟨"./", ["base"], ""⟩, ⟨"./bar", ["base"], "bar-image"⟩,
      ⟨"./bar/baz", ["base"], "baz-image"⟩] }

/-- The resolved resources of `TestCallEntriesFromResources`. -/
def gitSyncResources : List ResolvedResource :=
  [⟨"global", some { emptySet with
      Calls := [⟨"git-sync", "", "git pull --rebase", "", none⟩] }⟩,
   ⟨"feature", some { emptySet with
      Calls := [⟨"git-sync", "", "git pull", "", none⟩,
        ⟨"deploy", "", "./scripts/deploy.sh", "^--env=(dev|prod)$", none⟩] }⟩]

end Runtime

end Shai


namespace Shai.Config

/-! ## Lemmas on the Go library model -/

theorem trimSpace_ro : trimSpace "ro" = "ro" := by decide

theorem trimSpace_rw : trimSpace "rw" = "rw" := by decide

theorem toLower_ro (L : GoLib) : toLower L "ro" = "ro" := by rfl

theorem toLower_rw (L : GoLib) : toLower L "rw" = "rw" := by rfl

theorem toLower_empty (L : GoLib) : toLower L "" = "" := by rfl

theorem dropWhile_eq_nil_of_all {α : Type} (p : α → Bool) :
    ∀ l : List α, l.all p = true → l.dropWhile p = []
  | [], _ => rfl
  | a :: l, h => by
    simp only [List.all_cons, Bool.and_eq_true] at h
    simp [List.dropWhile_cons, h.1, dropWhile_eq_nil_of_all p l h.2]

/-- A string of white space only is trimmed to the empty string. -/
theorem trimSpace_of_all_space (s : String) (h : s.data.all isSpace = true) :
    trimSpace s = "" := by
  unfold trimSpace
  rw [dropWhile_eq_nil_of_all isSpace s.data h]
  rfl

theorem regexpCompile_ok (L : GoLib) (e : String) (rx : Regexp)
    (h : regexpCompile L e = .ok rx) : rx = ⟨e⟩ := by
  unfold regexpCompile at h
  split at h
  · cases h
  · cases h; rfl

theorem compiles_iff (L : GoLib) (e : String) :
    compiles L e = true ↔ regexpCompile L e = .ok ⟨e⟩ := by
  unfold compiles regexpCompile
  cases L.regexpSyntaxError e <;> simp

theorem compiles_false_iff (L : GoLib) (e : String) :
    compiles L e = false ↔ ∃ err, regexpCompile L e = .error err := by
  unfold compiles regexpCompile
  cases L.regexpSyntaxError e <;> simp

/-! ## Lemmas on the two loops -/

theorem mountMode_canon (L : GoLib) (m : Mount) (h : mountValid L m) :
    mountMode L (canonMount L m) = mountMode L m := by
  unfold canonMount
  rcases h with h | h <;> rw [h] <;> rfl

theorem normalizeMounts_snd_none_iff (L : GoLib) (pfx : String) :
    ∀ (ms : List Mount) (i : Nat),
      (normalizeMounts L pfx i ms).2 = none ↔ ∀ m ∈ ms, mountValid L m
  | [], _ => by simp [normalizeMounts]
  | m :: ms, i => by
    have ih := normalizeMounts_snd_none_iff L pfx ms (i + 1)
    simp only [normalizeMounts, List.forall_mem_cons, mountValid] at ih ⊢
    split_ifs with h
    · simp only [reduceCtorEq, false_iff]
      intro hh
      rcases hh.1 with h1 | h1
      · exact h.1 h1
      · exact h.2 h1
    · rw [ih]
      constructor
      · intro hh
        refine ⟨?_, hh⟩
        by_contra hc
        exact h ⟨fun a => hc (Or.inl a), fun a => hc (Or.inr a)⟩
      · exact fun hh => hh.2

theorem normalizeMounts_fst_of_valid (L : GoLib) (pfx : String) :
    ∀ (ms : List Mount) (i : Nat), (∀ m ∈ ms, mountValid L m) →
      (normalizeMounts L pfx i ms).1 = ms.map (canonMount L)
  | [], _, _ => by simp [normalizeMounts]
  | m :: ms, i, hv => by
    have hm : mountValid L m := hv m (List.mem_cons_self _ _)
    have ih := normalizeMounts_fst_of_valid L pfx ms (i + 1)
      (fun x hx => hv x (List.mem_cons_of_mem _ hx))
    simp only [normalizeMounts, List.map_cons]
    split_ifs with h
    · exfalso
      rcases hm with h1 | h1
      · exact h.1 h1
      · exact h.2 h1
    · simp only [ih]; rfl

/-- The mount loop stops at the first mount whose mode is not accepted, with the message
that names its index. -/
theorem normalizeMounts_snd_first_invalid (L : GoLib) (pfx : String) :
    ∀ (ms : List Mount) (k i : Nat) (m : Mount), ms[i]? = some m → ¬ mountValid L m →
      (∀ j, j < i → ∀ x, ms[j]? = some x → mountValid L x) →
      (normalizeMounts L pfx k ms).2 =
        some (pfx ++ " mount[" ++ toString (k + i) ++ "] has invalid mode " ++ L.quote m.Mode)
  | [], _, i, m, hm, _, _ => by simp at hm
  | a :: ms, k, 0, m, hm, hbad, _ => by
    simp only [List.getElem?_cons_zero, Option.some.injEq] at hm
    subst hm
    simp only [normalizeMounts]
    split_ifs with h
    · simp
    · exfalso
      apply hbad
      unfold mountValid
      by_contra hc
      exact h ⟨fun a => hc (Or.inl a), fun a => hc (Or.inr a)⟩
  | a :: ms, k, i + 1, m, hm, hbad, hlow => by
    have ha : mountValid L a := hlow 0 (Nat.succ_pos i) a (by simp)
    simp only [List.getElem?_cons_succ] at hm
    have ih := normalizeMounts_snd_first_invalid L pfx ms (k + 1) i m hm hbad
      (fun j hj x hx => hlow (j + 1) (Nat.succ_lt_succ hj) x (by simpa using hx))
    simp only [normalizeMounts]
    split_ifs with h
    · exfalso
      rcases ha with h1 | h1
      · exact h.1 h1
      · exact h.2 h1
    · have e : k + 1 + i = k + (i + 1) := by omega
      simp only [ih, e]

/-- One step of the call loop on a call that is accepted. -/
theorem normalizeCalls_cons_valid (L : GoLib) (pfx : String) (c : Call) (cs : List Call)
    (i : Nat) (hc : callValid L c) :
    normalizeCalls L pfx i (c :: cs) =
      (attachRx c :: (normalizeCalls L pfx (i + 1) cs).1, (normalizeCalls L pfx (i + 1) cs).2) := by
  obtain ⟨hn, hcmd, ha⟩ := hc
  simp only [normalizeCalls, if_neg hn, if_neg hcmd, attachRx]
  by_cases he : c.AllowedArgs = ""
  · simp [he]
  · have hok : compiles L c.AllowedArgs = true := ha.resolve_left he
    rw [compiles_iff] at hok
    simp [he, hok]

/-- One step of the call loop on a call that is not accepted: the loop returns an error
and leaves the calls as they are. -/
theorem normalizeCalls_cons_invalid (L : GoLib) (pfx : String) (c : Call) (cs : List Call)
    (i : Nat) (hc : ¬ callValid L c) :
    ∃ e, normalizeCalls L pfx i (c :: cs) = (c :: cs, some e) := by
  simp only [normalizeCalls]
  by_cases hn : trimSpace c.Name = ""
  · exact ⟨_, by rw [if_pos hn]⟩
  · by_cases hcmd : trimSpace c.Command = ""
    · exact ⟨_, by rw [if_neg hn, if_pos hcmd]⟩
    · by_cases he : c.AllowedArgs = ""
      · exact absurd ⟨hn, hcmd, Or.inl he⟩ hc
      · have hbad : compiles L c.AllowedArgs = false := by
          by_contra hcon
          exact hc ⟨hn, hcmd, Or.inr (by simpa using hcon)⟩
        obtain ⟨err, herr⟩ := (compiles_false_iff L _).1 hbad
        exact ⟨_, by rw [if_neg hn, if_neg hcmd, if_pos he, herr]⟩

theorem normalizeCalls_snd_none_iff (L : GoLib) (pfx : String) :
    ∀ (cs : List Call) (i : Nat),
      (normalizeCalls L pfx i cs).2 = none ↔ ∀ c ∈ cs, callValid L c
  | [], _ => by simp [normalizeCalls]
  | c :: cs, i => by
    have ih := normalizeCalls_snd_none_iff L pfx cs (i + 1)
    by_cases hc : callValid L c
    · rw [normalizeCalls_cons_valid L pfx c cs i hc, List.forall_mem_cons]
      simp only [ih, hc, true_and]
    · obtain ⟨e, he⟩ := normalizeCalls_cons_invalid L pfx c cs i hc
      rw [he, List.forall_mem_cons]
      simp [hc]

theorem normalizeCalls_fst_of_valid (L : GoLib) (pfx : String) :
    ∀ (cs : List Call) (i : Nat), (∀ c ∈ cs, callValid L c) →
      (normalizeCalls L pfx i cs).1 = cs.map attachRx
  | [], _, _ => by simp [normalizeCalls]
  | c :: cs, i, hv => by
    have hc : callValid L c := hv c (List.mem_cons_self _ _)
    have ih := normalizeCalls_fst_of_valid L pfx cs (i + 1)
      (fun x hx => hv x (List.mem_cons_of_mem _ hx))
    rw [normalizeCalls_cons_valid L pfx c cs i hc]
    simp only [ih, List.map_cons]

/-- The call loop, when the first violation is an expression that does not compile in a
call whose name and command are present, returns the message that names the call. -/
theorem normalizeCalls_snd_first_bad_regex (L : GoLib) (pfx : String) :
    ∀ (cs : List Call) (k j : Nat) (c : Call) (err : String), cs[j]? = some c →
      (∀ n, n < j → ∀ x, cs[n]? = some x → callValid L x) →
      trimSpace c.Name ≠ "" → trimSpace c.Command ≠ "" → c.AllowedArgs ≠ "" →
      regexpCompile L c.AllowedArgs = .error err →
      (normalizeCalls L pfx k cs).2 =
        some (pfx ++ " call[" ++ c.Name ++ "] invalid allowed-args regex: " ++ err)
  | [], _, j, c, _, hc, _, _, _, _, _ => by simp at hc
  | a :: cs, k, 0, c, err, hc, _, hn, hcmd, he, herr => by
    simp only [List.getElem?_cons_zero, Option.some.injEq] at hc
    subst hc
    simp only [normalizeCalls, if_neg hn, if_neg hcmd, if_pos he, herr]
  | a :: cs, k, j + 1, c, err, hc, hlow, hn, hcmd, he, herr => by
    have ha : callValid L a := hlow 0 (Nat.succ_pos j) a (by simp)
    simp only [List.getElem?_cons_succ] at hc
    have ih := normalizeCalls_snd_first_bad_regex L pfx cs (k + 1) j c err hc
      (fun n hn x hx => hlow (n + 1) (Nat.succ_lt_succ hn) x (by simpa using hx))
      hn hcmd he herr
    rw [normalizeCalls_cons_valid L pfx a cs k ha]
    exact ih

theorem attachRx_attachRx (c : Call) : attachRx (attachRx c) = attachRx c := by
  unfold attachRx
  by_cases he : c.AllowedArgs = "" <;> simp [he]

theorem callValid_attachRx (L : GoLib) (c : Call) :
    callValid L (attachRx c) ↔ callValid L c := by
  unfold attachRx callValid
  by_cases he : c.AllowedArgs = "" <;> simp [he]

theorem mountValid_canon (L : GoLib) (m : Mount) (h : mountValid L m) :
    mountValid L (canonMount L m) := by
  unfold mountValid
  rw [mountMode_canon L m h]
  exact h

theorem canonMount_canonMount (L : GoLib) (m : Mount) (h : mountValid L m) :
    canonMount L (canonMount L m) = canonMount L m := by
  have e := mountMode_canon L m h
  unfold canonMount at e ⊢
  simp only [e]

/-! ## Lemmas on `NormalizeResourceSet` -/

/-- The resource set is accepted exactly when all its mounts and calls are. -/
theorem NormalizeResourceSet_snd_none_iff (L : GoLib) (r : ResourceSet) (label : String) :
    (NormalizeResourceSet L (some r) label).2 = none ↔
      (∀ m ∈ r.Mounts, mountValid L m) ∧ (∀ c ∈ r.Calls, callValid L c) := by
  have hm := normalizeMounts_snd_none_iff L (labelPrefix label) r.Mounts 0
  have hc := normalizeCalls_snd_none_iff L (labelPrefix label) r.Calls 0
  simp only [NormalizeResourceSet]
  cases h : (normalizeMounts L (labelPrefix label) 0 r.Mounts).2 with
  | some e =>
    simp only [reduceCtorEq, false_iff]
    intro hh
    rw [hm.2 hh.1] at h
    cases h
  | none =>
    simp only [hc]
    exact ⟨fun hh => ⟨hm.1 h, hh⟩, fun hh => hh.2⟩

/-- The state an accepted resource set is left in: canonical modes, matchers attached. -/
theorem NormalizeResourceSet_fst_of_ok (L : GoLib) (r : ResourceSet) (label : String)
    (h : (NormalizeResourceSet L (some r) label).2 = none) :
    (NormalizeResourceSet L (some r) label).1 =
      some { r with Mounts := r.Mounts.map (canonMount L), Calls := r.Calls.map attachRx } := by
  obtain ⟨hm, hc⟩ := (NormalizeResourceSet_snd_none_iff L r label).1 h
  have h1 := (normalizeMounts_snd_none_iff L (labelPrefix label) r.Mounts 0).2 hm
  simp only [NormalizeResourceSet, h1,
    normalizeMounts_fst_of_valid L (labelPrefix label) r.Mounts 0 hm,
    normalizeCalls_fst_of_valid L (labelPrefix label) r.Calls 0 hc]

/-- An error of the mount loop is the error of the whole function. -/
theorem NormalizeResourceSet_of_mounts_error (L : GoLib) (r : ResourceSet) (label e : String)
    (h : (normalizeMounts L (labelPrefix label) 0 r.Mounts).2 = some e) :
    NormalizeResourceSet L (some r) label =
      (some { r with Mounts := (normalizeMounts L (labelPrefix label) 0 r.Mounts).1 }, some e) := by
  simp only [NormalizeResourceSet, h]

/-- After a mount loop without error the call loop decides. -/
theorem NormalizeResourceSet_of_mounts_ok (L : GoLib) (r : ResourceSet) (label : String)
    (h : (normalizeMounts L (labelPrefix label) 0 r.Mounts).2 = none) :
    NormalizeResourceSet L (some r) label =
      (some { r with
          Mounts := (normalizeMounts L (labelPrefix label) 0 r.Mounts).1,
          Calls := (normalizeCalls L (labelPrefix label) 0 r.Calls).1 },
        (normalizeCalls L (labelPrefix label) 0 r.Calls).2) := by
  simp only [NormalizeResourceSet, h]

theorem labelPrefix_of_not_blank (label : String) (h : trimSpace label ≠ "") :
    labelPrefix label = "resource " ++ label := by
  unfold labelPrefix
  rw [if_pos h]

theorem mountValid_iff (L : GoLib) (m : Mount) :
    mountValid L m ↔
      (toLower L (trimSpace m.Mode) = "" ∨ toLower L (trimSpace m.Mode) = "ro" ∨
        toLower L (trimSpace m.Mode) = "rw") := by
  unfold mountValid mountMode
  by_cases h : toLower L (trimSpace m.Mode) = ""
  · simp [h]
  · simp [h]

theorem exists_error_of_ne_none {o : Option String} (h : o ≠ none) : ∃ e, o = some e :=
  Option.ne_none_iff_exists'.1 h

/-! ## The normalizer: claims -/

/-- C1: when `NormalizeResourceSet` returns no error on a non-nil resource set, the mount
at every index `i` ends with mode exactly `rw` if its original mode, trimmed and
lower-cased, is `rw`, and with mode exactly `ro` if that is `ro` or empty, which includes
an original mode of white space only. -/
theorem normalize_mount_mode_canonical (L : GoLib) (r : ResourceSet) (label : String)
    (h : (NormalizeResourceSet L (some r) label).2 = none) :
    ∃ r', (NormalizeResourceSet L (some r) label).1 = some r' ∧
      ∀ (i : Nat) (m : Mount), r.Mounts[i]? = some m →
        ∃ m', r'.Mounts[i]? = some m' ∧
          (toLower L (trimSpace m.Mode) = "rw" → m'.Mode = "rw") ∧
          (toLower L (trimSpace m.Mode) = "ro" → m'.Mode = "ro") ∧
          (toLower L (trimSpace m.Mode) = "" → m'.Mode = "ro") ∧
          (m.Mode.data.all isSpace = true → m'.Mode = "ro") := by
  refine ⟨_, NormalizeResourceSet_fst_of_ok L r label h, ?_⟩
  intro i m hm
  refine ⟨canonMount L m, by simp [hm], ?_, ?_, ?_, ?_⟩
  · intro e
    simp [canonMount, mountMode, e]
  · intro e
    simp [canonMount, mountMode, e]
  · intro e
    simp [canonMount, mountMode, e]
  · intro e
    simp [canonMount, mountMode, trimSpace_of_all_space m.Mode e, toLower_empty]

/-- Witness of C1 on `sampleSet`. -/
theorem normalize_mount_mode_canonical_witness :
    (NormalizeResourceSet sampleLib (some sampleSet) "test").2 = none ∧
      ∃ r', (NormalizeResourceSet sampleLib (some sampleSet) "test").1 = some r' ∧
        ∀ (i : Nat) (m : Mount), sampleSet.Mounts[i]? = some m →
          ∃ m', r'.Mounts[i]? = some m' ∧
            (toLower sampleLib (trimSpace m.Mode) = "rw" → m'.Mode = "rw") ∧
            (toLower sampleLib (trimSpace m.Mode) = "ro" → m'.Mode = "ro") ∧
            (toLower sampleLib (trimSpace m.Mode) = "" → m'.Mode = "ro") ∧
            (m.Mode.data.all isSpace = true → m'.Mode = "ro") :=
  ⟨by decide, normalize_mount_mode_canonical sampleLib sampleSet "test" (by decide)⟩

/-- C2: a non-nil resource set with a mount whose mode, trimmed and lower-cased, is
neither empty nor `ro` nor `rw` makes `NormalizeResourceSet` return an error; when the
label is not blank and `i` is the lowest index of such a mount, the message begins
`resource L mount[i] has invalid mode`. -/
theorem normalize_invalid_mount_mode_rejected (L : GoLib) (r : ResourceSet) (label : String)
    (i : Nat) (m : Mount) (hm : r.Mounts[i]? = some m)
    (hbad : toLower L (trimSpace m.Mode) ≠ "" ∧ toLower L (trimSpace m.Mode) ≠ "ro" ∧
      toLower L (trimSpace m.Mode) ≠ "rw") :
    (∃ e, (NormalizeResourceSet L (some r) label).2 = some e) ∧
      (trimSpace label ≠ "" →
        (∀ j, j < i → ∀ x, r.Mounts[j]? = some x →
          (toLower L (trimSpace x.Mode) = "" ∨ toLower L (trimSpace x.Mode) = "ro" ∨
            toLower L (trimSpace x.Mode) = "rw")) →
        ∃ rest, (NormalizeResourceSet L (some r) label).2 =
          some ("resource " ++ label ++ " mount[" ++ toString i ++ "] has invalid mode" ++ rest)) := by
  have hinv : ¬ mountValid L m := by
    rw [mountValid_iff]
    rintro (h | h | h)
    · exact hbad.1 h
    · exact hbad.2.1 h
    · exact hbad.2.2 h
  constructor
  · apply exists_error_of_ne_none
    intro hnone
    exact hinv (((NormalizeResourceSet_snd_none_iff L r label).1 hnone).1 m
      (List.getElem?_mem hm))
  · intro hl hlow
    have hfirst := normalizeMounts_snd_first_invalid L (labelPrefix label) r.Mounts 0 i m hm hinv
      (fun j hj x hx => (mountValid_iff L x).2 (hlow j hj x hx))
    refine ⟨" " ++ L.quote m.Mode, ?_⟩
    rw [NormalizeResourceSet_of_mounts_error L r label _ hfirst,
      labelPrefix_of_not_blank label hl, Nat.zero_add]
    have e : "] has invalid mode " = "] has invalid mode" ++ " " := by decide
    simp only [e, String.append_assoc]

/-- Witness of C2 on `badModeSet`, whose mount 1 has mode `bad`. -/
theorem normalize_invalid_mount_mode_rejected_witness :
    (∃ e, (NormalizeResourceSet sampleLib (some badModeSet) "test").2 = some e) ∧
      ∃ rest, (NormalizeResourceSet sampleLib (some badModeSet) "test").2 =
        some ("resource " ++ "test" ++ " mount[" ++ toString 1 ++ "] has invalid mode" ++ rest) := by
  have h := normalize_invalid_mount_mode_rejected sampleLib badModeSet "test" 1
    ⟨"/tmp", "/mnt", "bad"⟩ (by decide) (by decide)
  refine ⟨h.1, h.2 (by decide) ?_⟩
  intro j hj x hx
  have hj0 : j = 0 := by omega
  subst hj0
  have hx0 : x = ⟨"/tmp", "/mnt", "RW"⟩ := by
    simpa [badModeSet] using hx.symm
  subst hx0
  decide

/-- C3: a non-nil resource set with a call whose name is empty after trimming, or whose
command is empty after trimming, makes `NormalizeResourceSet` return an error, whatever
the other mounts and calls are. -/
theorem normalize_blank_call_rejected (L : GoLib) (r : ResourceSet) (label : String)
    (c : Call) (hc : c ∈ r.Calls)
    (hblank : trimSpace c.Name = "" ∨ trimSpace c.Command = "") :
    ∃ e, (NormalizeResourceSet L (some r) label).2 = some e := by
  apply exists_error_of_ne_none
  intro hnone
  obtain ⟨hn, hcmd, _⟩ := ((NormalizeResourceSet_snd_none_iff L r label).1 hnone).2 c hc
  rcases hblank with h | h
  · exact hn h
  · exact hcmd h

/-- Witness of C3 on `blankCallSet`, whose second call has a command of spaces. -/
theorem normalize_blank_call_rejected_witness :
    ∃ e, (NormalizeResourceSet sampleLib (some blankCallSet) "test").2 = some e :=
  normalize_blank_call_rejected sampleLib blankCallSet "test" ⟨"other", "", "  ", "", none⟩
    (by decide) (by decide)

/-- C4: a non-nil resource set with a call whose allowed-args expression is not empty and
does not compile makes `NormalizeResourceSet` return an error.  When that expression is
the first violation of the set (all mounts and all earlier calls are accepted, and the
name and the command of the call itself are present) and the label is not blank, the
message names the label and the call by its name:
`resource L call[N] invalid allowed-args regex`. -/
theorem normalize_bad_regex_rejected (L : GoLib) (r : ResourceSet) (label : String)
    (j : Nat) (c : Call) (hc : r.Calls[j]? = some c) (hne : c.AllowedArgs ≠ "")
    (hbad : compiles L c.AllowedArgs = false) :
    (∃ e, (NormalizeResourceSet L (some r) label).2 = some e) ∧
      (trimSpace label ≠ "" →
        (∀ m ∈ r.Mounts, toLower L (trimSpace m.Mode) = "" ∨
          toLower L (trimSpace m.Mode) = "ro" ∨ toLower L (trimSpace m.Mode) = "rw") →
        (∀ n, n < j → ∀ x, r.Calls[n]? = some x →
          trimSpace x.Name ≠ "" ∧ trimSpace x.Command ≠ "" ∧
            (x.AllowedArgs = "" ∨ compiles L x.AllowedArgs = true)) →
        trimSpace c.Name ≠ "" → trimSpace c.Command ≠ "" →
        ∃ rest, (NormalizeResourceSet L (some r) label).2 =
          some ("resource " ++ label ++ " call[" ++ c.Name ++ "] invalid allowed-args regex" ++
            rest)) := by
  constructor
  · apply exists_error_of_ne_none
    intro hnone
    obtain ⟨_, _, ha⟩ :=
      ((NormalizeResourceSet_snd_none_iff L r label).1 hnone).2 c (List.getElem?_mem hc)
    rcases ha with h | h
    · exact hne h
    · rw [hbad] at h
      cases h
  · intro hl hms hlow hn hcmd
    obtain ⟨err, herr⟩ := (compiles_false_iff L _).1 hbad
    have hmok := (normalizeMounts_snd_none_iff L (labelPrefix label) r.Mounts 0).2
      (fun m hm => (mountValid_iff L m).2 (hms m hm))
    have hfirst := normalizeCalls_snd_first_bad_regex L (labelPrefix label) r.Calls 0 j c err hc
      hlow hn hcmd hne herr
    refine ⟨": " ++ err, ?_⟩
    rw [NormalizeResourceSet_of_mounts_ok L r label hmok, hfirst,
      labelPrefix_of_not_blank label hl]
    have e : "] invalid allowed-args regex: " = "] invalid allowed-args regex" ++ ": " := by
      decide
    simp only [e, String.append_assoc]

/-- Witness of C4 on `badRegexSet`, whose call 1, named `do`, has the expression `(`. -/
theorem normalize_bad_regex_rejected_witness :
    (∃ e, (NormalizeResourceSet sampleLib (some badRegexSet) "test").2 = some e) ∧
      ∃ rest, (NormalizeResourceSet sampleLib (some badRegexSet) "test").2 =
        some ("resource " ++ "test" ++ " call[" ++ "do" ++ "] invalid allowed-args regex" ++
          rest) := by
  have h := normalize_bad_regex_rejected sampleLib badRegexSet "test" 1
    ⟨"do", "", "echo hi", "(", none⟩ (by decide) (by decide) (by decide)
  refine ⟨h.1, h.2 (by decide) (by decide) ?_ (by decide) (by decide)⟩
  intro n hn x hx
  have hn0 : n = 0 := by omega
  subst hn0
  have hx0 : x = ⟨"first", "", "echo hi", "^a$", none⟩ := by
    simpa [badRegexSet] using hx.symm
  subst hx0
  decide

/-- C5: when `NormalizeResourceSet` returns no error on a non-nil resource set, afterwards
every mount of the set has mode exactly `ro` or `rw`, and every call of the set has a name
and a command that are not empty after trimming. -/
theorem normalize_postcondition (L : GoLib) (r : ResourceSet) (label : String)
    (h : (NormalizeResourceSet L (some r) label).2 = none) :
    ∃ r', (NormalizeResourceSet L (some r) label).1 = some r' ∧
      (∀ m ∈ r'.Mounts, m.Mode = "ro" ∨ m.Mode = "rw") ∧
      (∀ c ∈ r'.Calls, trimSpace c.Name ≠ "" ∧ trimSpace c.Command ≠ "") := by
  obtain ⟨hm, hc⟩ := (NormalizeResourceSet_snd_none_iff L r label).1 h
  refine ⟨_, NormalizeResourceSet_fst_of_ok L r label h, ?_, ?_⟩
  · intro m hmem
    obtain ⟨m0, hm0, rfl⟩ := List.mem_map.1 hmem
    exact hm m0 hm0
  · intro c hmem
    obtain ⟨c0, hc0, rfl⟩ := List.mem_map.1 hmem
    have hv := (callValid_attachRx L c0).2 (hc c0 hc0)
    exact ⟨hv.1, hv.2.1⟩

/-- Witness of C5 on `sampleSet`. -/
theorem normalize_postcondition_witness :
    (NormalizeResourceSet sampleLib (some sampleSet) "test").2 = none ∧
      ∃ r', (NormalizeResourceSet sampleLib (some sampleSet) "test").1 = some r' ∧
        (∀ m ∈ r'.Mounts, m.Mode = "ro" ∨ m.Mode = "rw") ∧
        (∀ c ∈ r'.Calls, trimSpace c.Name ≠ "" ∧ trimSpace c.Command ≠ "") :=
  ⟨by decide, normalize_postcondition sampleLib sampleSet "test" (by decide)⟩

/-- C6: `NormalizeResourceSet` is idempotent: when a first call returns no error, a second
call on the resulting set, under any label, returns no error and leaves the set as the
first call left it: same mount modes, same calls, same compiled matchers. -/
theorem normalize_idempotent (L : GoLib) (res : Option ResourceSet) (label label2 : String)
    (h : (NormalizeResourceSet L res label).2 = none) :
    NormalizeResourceSet L (NormalizeResourceSet L res label).1 label2 =
      ((NormalizeResourceSet L res label).1, none) := by
  cases res with
  | none => rfl
  | some r =>
    obtain ⟨hm, hc⟩ := (NormalizeResourceSet_snd_none_iff L r label).1 h
    rw [NormalizeResourceSet_fst_of_ok L r label h]
    have hm2 : ∀ m ∈ r.Mounts.map (canonMount L), mountValid L m := by
      intro m hmem
      obtain ⟨m0, hm0, rfl⟩ := List.mem_map.1 hmem
      exact mountValid_canon L m0 (hm m0 hm0)
    have hc2 : ∀ c ∈ r.Calls.map attachRx, callValid L c := by
      intro c hmem
      obtain ⟨c0, hc0, rfl⟩ := List.mem_map.1 hmem
      exact (callValid_attachRx L c0).2 (hc c0 hc0)
    have hok : (NormalizeResourceSet L (some { r with
        Mounts := r.Mounts.map (canonMount L), Calls := r.Calls.map attachRx }) label2).2 = none :=
      (NormalizeResourceSet_snd_none_iff L _ label2).2 ⟨hm2, hc2⟩
    have hfst := NormalizeResourceSet_fst_of_ok L _ label2 hok
    have e1 : (r.Mounts.map (canonMount L)).map (canonMount L) = r.Mounts.map (canonMount L) := by
      rw [List.map_map]
      exact List.map_congr_left (fun m hmem => canonMount_canonMount L m (hm m hmem))
    have e2 : (r.Calls.map attachRx).map attachRx = r.Calls.map attachRx := by
      rw [List.map_map]
      exact List.map_congr_left (fun c _ => attachRx_attachRx c)
    simp only [e1, e2] at hfst
    exact Prod.ext hfst hok

/-- Witness of C6 on `sampleSet`. -/
theorem normalize_idempotent_witness :
    (NormalizeResourceSet sampleLib (some sampleSet) "test").2 = none ∧
      NormalizeResourceSet sampleLib (NormalizeResourceSet sampleLib (some sampleSet) "test").1
          "again" =
        ((NormalizeResourceSet sampleLib (some sampleSet) "test").1, none) :=
  ⟨by decide, normalize_idempotent sampleLib (some sampleSet) "test" "again" (by decide)⟩

/-- C7: no valid set is rejected: when every mount mode, trimmed and lower-cased, is empty,
`ro` or `rw`, every call has a name and a command that are not empty after trimming, and
every allowed-args expression is empty or compiles, `NormalizeResourceSet` returns no
error under every label; vars, HTTP hosts, ports, root commands and options play no part. -/
theorem normalize_accepts_valid (L : GoLib) (r : ResourceSet)
    (hm : ∀ m ∈ r.Mounts, toLower L (trimSpace m.Mode) = "" ∨
      toLower L (trimSpace m.Mode) = "ro" ∨ toLower L (trimSpace m.Mode) = "rw")
    (hc : ∀ c ∈ r.Calls, trimSpace c.Name ≠ "" ∧ trimSpace c.Command ≠ "" ∧
      (c.AllowedArgs = "" ∨ compiles L c.AllowedArgs = true)) :
    ∀ label : String, (NormalizeResourceSet L (some r) label).2 = none :=
  fun label => (NormalizeResourceSet_snd_none_iff L r label).2
    ⟨fun m hmem => (mountValid_iff L m).2 (hm m hmem), hc⟩

/-- Witness of C7 on `sampleSet`, under the empty label. -/
theorem normalize_accepts_valid_witness :
    (NormalizeResourceSet sampleLib (some sampleSet) "").2 = none :=
  normalize_accepts_valid sampleLib sampleSet (by decide) (by decide) ""

end Shai.Config

namespace Shai.Pkg

open Shai.Config

/-! ## The sandbox configuration: lemmas -/

/-- The method `normalize` leaves the prepend and append sets alone. -/
theorem normalize_resource_sets (L : GoLib) (cfg : SandboxConfig) :
    (((SandboxConfig.normalize L (some cfg)).1).getD cfg).PrependResourceSet =
        cfg.PrependResourceSet ∧
      (((SandboxConfig.normalize L (some cfg)).1).getD cfg).AppendResourceSet =
        cfg.AppendResourceSet := by
  unfold SandboxConfig.normalize
  by_cases hw : trimSpace cfg.WorkingDir = ""
  · cases hg : L.getwd with
    | error err => simp [hw, hg]
    | ok wd =>
      by_cases hf : trimSpace cfg.ConfigFile = "" <;> simp [hw, hg, hf]
  · by_cases hf : trimSpace cfg.ConfigFile = "" <;> simp [hw, hf]

theorem convertResourceSet_none (L : GoLib) (label : String) :
    convertResourceSet L none label = .ok none := rfl

theorem convertResourceSet_of_error (L : GoLib) (s : ResourceSet) (label e : String)
    (h : (NormalizeResourceSet L (some (copyResourceSet s)) label).2 = some e) :
    convertResourceSet L (some s) label = .error e := by
  cases hn : NormalizeResourceSet L (some (copyResourceSet s)) label with
  | mk a b =>
    rw [hn] at h
    simp only at h
    subst h
    simp only [convertResourceSet, hn]

theorem convertResourceSet_of_ok (L : GoLib) (s : ResourceSet) (label : String)
    (h : (NormalizeResourceSet L (some (copyResourceSet s)) label).2 = none) :
    convertResourceSet L (some s) label =
      .ok (NormalizeResourceSet L (some (copyResourceSet s)) label).1 := by
  cases hn : NormalizeResourceSet L (some (copyResourceSet s)) label with
  | mk a b =>
    rw [hn] at h
    simp only at h
    subst h
    simp only [convertResourceSet, hn]

/-- The error `convertResourceSet` returns is the one of the normalizer on the copy. -/
theorem convertResourceSet_error_iff (L : GoLib) (set : Option ResourceSet) (label e : String) :
    convertResourceSet L set label = .error e ↔
      ∃ s, set = some s ∧ (NormalizeResourceSet L (some (copyResourceSet s)) label).2 = some e := by
  cases set with
  | none => simp [convertResourceSet_none]
  | some s =>
    cases h : (NormalizeResourceSet L (some (copyResourceSet s)) label).2 with
    | none => simp [convertResourceSet_of_ok L s label h, h]
    | some e' => simp [convertResourceSet_of_error L s label e' h, h]

theorem runtimeConfig_eq (L : GoLib) (cfg : SandboxConfig) :
    SandboxConfig.runtimeConfig L cfg =
      match convertResourceSet L cfg.PrependResourceSet "prepend" with
      | .error err => .error err
      | .ok prepend =>
        match convertResourceSet L cfg.AppendResourceSet "append" with
        | .error err => .error err
        | .ok appendSet =>
          .ok { WorkingDir := (((SandboxConfig.normalize L (some cfg)).1).getD cfg).WorkingDir,
                ConfigFile := (((SandboxConfig.normalize L (some cfg)).1).getD cfg).ConfigFile,
                TemplateVars := (((SandboxConfig.normalize L (some cfg)).1).getD cfg).TemplateVars,
                ReadWritePaths :=
                  (((SandboxConfig.normalize L (some cfg)).1).getD cfg).ReadWritePaths,
                ResourceSets := (((SandboxConfig.normalize L (some cfg)).1).getD cfg).ResourceSets,
                PrependResourceSet := prepend,
                AppendResourceSet := appendSet,
                Verbose := (((SandboxConfig.normalize L (some cfg)).1).getD cfg).Verbose,
                PostSetupExec :=
                  convertExec (((SandboxConfig.normalize L (some cfg)).1).getD cfg).PostSetupExec,
                Stdout := (((SandboxConfig.normalize L (some cfg)).1).getD cfg).Stdout,
                Stderr := (((SandboxConfig.normalize L (some cfg)).1).getD cfg).Stderr,
                GracefulStopTimeout :=
                  (((SandboxConfig.normalize L (some cfg)).1).getD cfg).GracefulStopTimeout,
                ImageOverride := (((SandboxConfig.normalize L (some cfg)).1).getD cfg).ImageOverride,
                UserOverride := (((SandboxConfig.normalize L (some cfg)).1).getD cfg).UserOverride,
                HostUID := (((SandboxConfig.normalize L (some cfg)).1).getD cfg).HostUID,
                HostGID := (((SandboxConfig.normalize L (some cfg)).1).getD cfg).HostGID,
                Privileged := (((SandboxConfig.normalize L (some cfg)).1).getD cfg).Privileged,
                ShowProgress := (((SandboxConfig.normalize L (some cfg)).1).getD cfg).ShowProgress,
                ShowScriptOutput :=
                  (((SandboxConfig.normalize L (some cfg)).1).getD cfg).ShowScriptOutput } := by
  obtain ⟨h1, h2⟩ := normalize_resource_sets L cfg
  unfold SandboxConfig.runtimeConfig
  simp only [h1, h2]

/-- The error of `runtimeConfig` is the error of the prepend conversion, or else of the
append conversion. -/
theorem runtimeConfig_error_iff_convert (L : GoLib) (cfg : SandboxConfig) (e : String) :
    SandboxConfig.runtimeConfig L cfg = .error e ↔
      (convertResourceSet L cfg.PrependResourceSet "prepend" = .error e ∨
        ((∃ p, convertResourceSet L cfg.PrependResourceSet "prepend" = .ok p) ∧
          convertResourceSet L cfg.AppendResourceSet "append" = .error e)) := by
  rw [runtimeConfig_eq]
  cases hp : convertResourceSet L cfg.PrependResourceSet "prepend" with
  | error e1 => simp
  | ok p =>
    cases ha : convertResourceSet L cfg.AppendResourceSet "append" with
    | error e2 => simp
    | ok a => simp

theorem attachRx_fields (c : Config.Call) :
    ((attachRx c).Name, (attachRx c).Description, (attachRx c).Command, (attachRx c).AllowedArgs) =
      (c.Name, c.Description, c.Command, c.AllowedArgs) := by
  unfold attachRx
  by_cases he : c.AllowedArgs = "" <;> simp [he]

/-! ## The sandbox configuration: claims -/

/-- C8: `runtimeConfig` returns an error if and only if the prepend set or the append set
is non-nil and rejected by `NormalizeResourceSet`.  The prepend set is checked first, under
the label `prepend`, the append set second, under the label `append`, and the error is the
normalization error of the first rejected set.  Nothing else makes it fail: the statement
holds for every library state, a failing working-directory lookup included. -/
theorem runtimeConfig_error_iff (L : GoLib) (cfg : SandboxConfig) :
    ((∃ e, SandboxConfig.runtimeConfig L cfg = .error e) ↔
      ((∃ s, cfg.PrependResourceSet = some s ∧
          (NormalizeResourceSet L (some (copyResourceSet s)) "prepend").2 ≠ none) ∨
        (∃ s, cfg.AppendResourceSet = some s ∧
          (NormalizeResourceSet L (some (copyResourceSet s)) "append").2 ≠ none))) ∧
      (∀ s e, cfg.PrependResourceSet = some s →
        (NormalizeResourceSet L (some (copyResourceSet s)) "prepend").2 = some e →
        SandboxConfig.runtimeConfig L cfg = .error e) ∧
      (∀ s e,
        (∀ p, cfg.PrependResourceSet = some p →
          (NormalizeResourceSet L (some (copyResourceSet p)) "prepend").2 = none) →
        cfg.AppendResourceSet = some s →
        (NormalizeResourceSet L (some (copyResourceSet s)) "append").2 = some e →
        SandboxConfig.runtimeConfig L cfg = .error e) := by
  refine ⟨?_, ?_, ?_⟩
  · constructor
    · rintro ⟨e, he⟩
      rcases (runtimeConfig_error_iff_convert L cfg e).1 he with h | ⟨_, h⟩
      · obtain ⟨s, hs, hn⟩ := (convertResourceSet_error_iff L _ _ e).1 h
        exact Or.inl ⟨s, hs, by rw [hn]; simp⟩
      · obtain ⟨s, hs, hn⟩ := (convertResourceSet_error_iff L _ _ e).1 h
        exact Or.inr ⟨s, hs, by rw [hn]; simp⟩
    · rintro (⟨s, hs, hn⟩ | ⟨s, hs, hn⟩)
      · obtain ⟨e, he⟩ := exists_error_of_ne_none hn
        exact ⟨e, (runtimeConfig_error_iff_convert L cfg e).2
          (Or.inl ((convertResourceSet_error_iff L _ _ e).2 ⟨s, hs, he⟩))⟩
      · obtain ⟨e, he⟩ := exists_error_of_ne_none hn
        cases hp : convertResourceSet L cfg.PrependResourceSet "prepend" with
        | error e1 =>
          exact ⟨e1, (runtimeConfig_error_iff_convert L cfg e1).2 (Or.inl hp)⟩
        | ok p =>
          exact ⟨e, (runtimeConfig_error_iff_convert L cfg e).2
            (Or.inr ⟨⟨p, hp⟩, (convertResourceSet_error_iff L _ _ e).2 ⟨s, hs, he⟩⟩)⟩
  · intro s e hs he
    exact (runtimeConfig_error_iff_convert L cfg e).2
      (Or.inl ((convertResourceSet_error_iff L _ _ e).2 ⟨s, hs, he⟩))
  · intro s e hp hs he
    refine (runtimeConfig_error_iff_convert L cfg e).2
      (Or.inr ⟨?_, (convertResourceSet_error_iff L _ _ e).2 ⟨s, hs, he⟩⟩)
    cases hpre : cfg.PrependResourceSet with
    | none => exact ⟨none, convertResourceSet_none L _⟩
    | some p => exact ⟨_, convertResourceSet_of_ok L p _ (hp p hpre)⟩

/-- Witness of C8: with an accepted prepend set and a rejected append set the error is the
one of the append set, and a failing working-directory lookup alone gives no error. -/
theorem runtimeConfig_error_iff_witness :
    SandboxConfig.runtimeConfig sampleLib badAppendConfig =
        .error "resource append mount[0] has invalid mode \"bad\"" ∧
      ¬ ∃ e, SandboxConfig.runtimeConfig noWdLib SandboxConfig.zero = .error e := by
  constructor
  · refine (runtimeConfig_error_iff sampleLib badAppendConfig).2.2 badPublicSet _ ?_ rfl
      (by decide)
    intro p hp
    have hp0 : p = goodPublicSet := by
      simpa [badAppendConfig] using hp.symm
    subst hp0
    decide
  · rw [(runtimeConfig_error_iff noWdLib SandboxConfig.zero).1]
    rintro (⟨s, hs, _⟩ | ⟨s, hs, _⟩)
    · simp [SandboxConfig.zero] at hs
    · simp [SandboxConfig.zero] at hs

/-- C9: `convertResourceSet` preserves content.  A nil set gives nil and no error.  A
non-nil set that normalization accepts gives a set with the same vars, mounts, calls, HTTP
hosts, ports and root commands in the same number and order: each var with its source and
target, each mount with its source and target and the canonical form of its mode, each call
with its name, description, command and allowed-args, each port with its host and port, and
the same privileged option; the result is what `NormalizeResourceSet` leaves of the
field-by-field copy. -/
theorem convertResourceSet_preserves (L : GoLib) (label : String) :
    convertResourceSet L none label = .ok none ∧
      ∀ s : ResourceSet,
        (NormalizeResourceSet L (some (copyResourceSet s)) label).2 = none →
        ∃ out, convertResourceSet L (some s) label = .ok (some out) ∧
          (NormalizeResourceSet L (some (copyResourceSet s)) label).1 = some out ∧
          out.Vars = s.Vars.map (fun v => ⟨v.Source, v.Target⟩) ∧
          out.Mounts = s.Mounts.map (fun m => ⟨m.Source, m.Target,
            if toLower L (trimSpace m.Mode) = "" then "ro" else toLower L (trimSpace m.Mode)⟩) ∧
          (∀ m ∈ out.Mounts, m.Mode = "ro" ∨ m.Mode = "rw") ∧
          out.Calls.map (fun c => (c.Name, c.Description, c.Command, c.AllowedArgs)) =
            s.Calls.map (fun c => (c.Name, c.Description, c.Command, c.AllowedArgs)) ∧
          out.HTTP = s.HTTP ∧
          out.Ports = s.Ports.map (fun p => ⟨p.Host, p.Port⟩) ∧
          out.RootCommands = s.RootCommands ∧
          out.Options.Privileged = s.Options.Privileged := by
  refine ⟨rfl, ?_⟩
  intro s h
  have hfst := NormalizeResourceSet_fst_of_ok L (copyResourceSet s) label h
  obtain ⟨hm, _⟩ := (NormalizeResourceSet_snd_none_iff L _ label).1 h
  refine ⟨_, ?_, hfst, ?_, ?_, ?_, ?_, ?_, ?_, ?_, ?_⟩
  · rw [convertResourceSet_of_ok L s label h, hfst]
  · simp [copyResourceSet]
  · simp [copyResourceSet, List.map_map, canonMount, mountMode, Function.comp_def]
  · intro m hmem
    obtain ⟨m0, hm0, rfl⟩ := List.mem_map.1 hmem
    exact hm m0 hm0
  · simp only [copyResourceSet, List.map_map]
    apply List.map_congr_left
    intro c _
    simp only [Function.comp_apply]
    rw [attachRx_fields]
  · simp [copyResourceSet]
  · simp [copyResourceSet]
  · simp [copyResourceSet]
  · simp [copyResourceSet]

/-- Witness of C9 on `goodPublicSet`. -/
theorem convertResourceSet_preserves_witness :
    (NormalizeResourceSet sampleLib (some (copyResourceSet goodPublicSet)) "prepend").2 = none ∧
      ∃ out, convertResourceSet sampleLib (some goodPublicSet) "prepend" = .ok (some out) ∧
        out.Mounts = [⟨"/tmp", "/mnt", "rw"⟩] ∧ out.HTTP = ["prepend.example"] := by
  refine ⟨by decide, ?_⟩
  obtain ⟨out, h1, _, _, h4, _, _, h7, _⟩ :=
    (convertResourceSet_preserves sampleLib "prepend").2 goodPublicSet (by decide)
  refine ⟨out, h1, ?_, h7⟩
  rw [h4]
  decide

end Shai.Pkg

namespace Shai.Runtime

/-! ## Path ordering: lemmas -/

theorem pathDepth_root : pathDepth "." = 0 := by decide

theorem pathDepth_eq_zero_iff (p : String) : pathDepth p = 0 ↔ p = "." := by
  unfold pathDepth
  by_cases h : p = "."
  · simp [h]
  · simp [h]

theorem mem_dedupPaths (a : String) : ∀ ps : List String, a ∈ dedupPaths ps ↔ a ∈ ps
  | [] => by simp [dedupPaths]
  | p :: ps => by
    have ih := mem_dedupPaths a ps
    simp only [dedupPaths, List.mem_cons, List.mem_filter, ih, decide_eq_true_eq]
    by_cases h : a = p
    · simp [h]
    · simp [h]

theorem nodup_dedupPaths : ∀ ps : List String, (dedupPaths ps).Nodup
  | [] => by simp [dedupPaths]
  | p :: ps => by
    simp only [dedupPaths, List.nodup_cons, List.mem_filter, decide_eq_true_eq]
    exact ⟨fun h => h.2 rfl, (nodup_dedupPaths ps).filter _⟩

/-- The paths that are kept stand in the order of their first occurrences. -/
theorem pairwise_dedupPaths :
    ∀ ps : List String,
      (dedupPaths ps).Pairwise (fun a b => ps.indexOf a < ps.indexOf b)
  | [] => by simp [dedupPaths]
  | p :: ps => by
    have ih := pairwise_dedupPaths ps
    simp only [dedupPaths, List.pairwise_cons, List.mem_filter, decide_eq_true_eq]
    constructor
    · intro a ha
      rw [List.indexOf_cons_self, List.indexOf_cons_ne _ (Ne.symm ha.2)]
      exact Nat.succ_pos _
    · refine (ih.filter _).imp_of_mem ?_
      intro a b ha hb hab
      simp only [List.mem_filter, decide_eq_true_eq] at ha hb
      rw [List.indexOf_cons_ne _ (Ne.symm ha.2), List.indexOf_cons_ne _ (Ne.symm hb.2)]
      exact Nat.succ_lt_succ hab

theorem dedupPaths_of_nodup : ∀ ps : List String, ps.Nodup → dedupPaths ps = ps
  | [], _ => rfl
  | p :: ps, h => by
    obtain ⟨hp, hps⟩ := List.nodup_cons.1 h
    simp only [dedupPaths, dedupPaths_of_nodup ps hps]
    congr 1
    rw [List.filter_eq_self]
    intro a ha
    simp only [decide_eq_true_eq]
    rintro rfl
    exact hp ha

theorem perm_insertByDepth (p : String) : ∀ l : List String, (insertByDepth p l).Perm (p :: l)
  | [] => List.Perm.refl _
  | q :: qs => by
    unfold insertByDepth
    split_ifs with h
    · exact List.Perm.refl _
    · exact ((perm_insertByDepth p qs).cons q).trans (List.Perm.swap p q qs)

theorem perm_sortByDepth : ∀ l : List String, (sortByDepth l).Perm l
  | [] => List.Perm.refl _
  | p :: ps => by
    unfold sortByDepth
    exact (perm_insertByDepth p _).trans ((perm_sortByDepth ps).cons p)

theorem depthThen_le {before : String → String → Prop} {a b : String}
    (h : depthThen before a b) : pathDepth a ≤ pathDepth b := by
  rcases h with h | h
  · exact Nat.le_of_lt h
  · exact Nat.le_of_eq h.1

theorem pairwise_insertByDepth (before : String → String → Prop) (p : String) :
    ∀ l : List String, l.Pairwise (depthThen before) → (∀ b ∈ l, before p b) →
      (insertByDepth p l).Pairwise (depthThen before)
  | [], _, _ => by simp [insertByDepth]
  | q :: qs, hl, hb => by
    obtain ⟨hq, hqs⟩ := List.pairwise_cons.1 hl
    unfold insertByDepth
    split_ifs with h
    · refine List.pairwise_cons.2 ⟨?_, hl⟩
      intro b hbm
      have hle : pathDepth p ≤ pathDepth b := by
        rcases List.mem_cons.1 hbm with rfl | hbq
        · exact h
        · exact Nat.le_trans h (depthThen_le (hq b hbq))
      rcases Nat.lt_or_eq_of_le hle with hlt | heq
      · exact Or.inl hlt
      · exact Or.inr ⟨heq, hb b hbm⟩
    · refine List.pairwise_cons.2 ⟨?_, pairwise_insertByDepth before p qs hqs
        (fun b hbm => hb b (List.mem_cons_of_mem _ hbm))⟩
      intro b hbm
      rcases List.mem_cons.1 ((perm_insertByDepth p qs).mem_iff.1 hbm) with rfl | hbq
      · exact Or.inl (Nat.lt_of_not_le h)
      · exact hq b hbq

/-- The sort is stable: paths of one depth keep the order they come in. -/
theorem pairwise_sortByDepth (before : String → String → Prop) :
    ∀ l : List String, l.Pairwise before → (sortByDepth l).Pairwise (depthThen before)
  | [], _ => by simp [sortByDepth]
  | p :: ps, h => by
    obtain ⟨hp, hps⟩ := List.pairwise_cons.1 h
    unfold sortByDepth
    exact pairwise_insertByDepth before p _ (pairwise_sortByDepth before ps hps)
      (fun b hbm => hp b ((perm_sortByDepth ps).mem_iff.1 hbm))

theorem sortByDepth_of_sorted :
    ∀ l : List String, l.Pairwise (fun a b => pathDepth a ≤ pathDepth b) → sortByDepth l = l
  | [], _ => rfl
  | p :: ps, h => by
    obtain ⟨hp, hps⟩ := List.pairwise_cons.1 h
    unfold sortByDepth
    rw [sortByDepth_of_sorted ps hps]
    cases ps with
    | nil => rfl
    | cons q qs =>
      unfold insertByDepth
      rw [if_pos (hp q (List.mem_cons_self _ _))]

theorem mem_orderedResourcePaths (paths : List String) (p : String) :
    p ∈ orderedResourcePaths paths ↔ p ∈ paths := by
  unfold orderedResourcePaths
  rw [(perm_sortByDepth _).mem_iff, mem_dedupPaths]

theorem nodup_orderedResourcePaths (paths : List String) :
    (orderedResourcePaths paths).Nodup :=
  (perm_sortByDepth _).nodup_iff.2 (nodup_dedupPaths paths)

theorem pairwise_orderedResourcePaths (paths : List String) :
    (orderedResourcePaths paths).Pairwise
      (depthThen (fun a b => paths.indexOf a < paths.indexOf b)) :=
  pairwise_sortByDepth _ _ (pairwise_dedupPaths paths)

/-! ## Path ordering: claims -/

/-- C10: `orderedResourcePaths` returns the paths of its input, each once; the result is
sorted by depth ascending, and paths of equal depth stand in the order of their first
occurrences in the input; the root path `.`, when it occurs, is first; applied to its own
output it returns that output; and `["src", ".", "src", "pkg"]` gives
`[".", "src", "pkg"]`. -/
theorem orderedResourcePaths_spec (paths : List String) :
    (orderedResourcePaths paths).Nodup ∧
      (∀ p, p ∈ orderedResourcePaths paths ↔ p ∈ paths) ∧
      (orderedResourcePaths paths).Pairwise (fun a b =>
        pathDepth a < pathDepth b ∨
          (pathDepth a = pathDepth b ∧ paths.indexOf a < paths.indexOf b)) ∧
      ("." ∈ paths → (orderedResourcePaths paths).head? = some ".") ∧
      orderedResourcePaths (orderedResourcePaths paths) = orderedResourcePaths paths ∧
      orderedResourcePaths ["src", ".", "src", "pkg"] = [".", "src", "pkg"] := by
  have hnd := nodup_orderedResourcePaths paths
  have hpw := pairwise_orderedResourcePaths paths
  refine ⟨hnd, mem_orderedResourcePaths paths, hpw, ?_, ?_, by decide⟩
  · intro hroot
    have hmem := (mem_orderedResourcePaths paths ".").2 hroot
    cases hres : orderedResourcePaths paths with
    | nil => rw [hres] at hmem; cases hmem
    | cons a l =>
      rw [hres] at hmem hpw
      rcases List.mem_cons.1 hmem with h | h
      · simp [h]
      · have hle := depthThen_le ((List.pairwise_cons.1 hpw).1 "." h)
        rw [pathDepth_root] at hle
        have ha : a = "." := (pathDepth_eq_zero_iff a).1 (Nat.le_zero.1 hle)
        simp [ha]
  · have hsorted : (orderedResourcePaths paths).Pairwise
        (fun a b => pathDepth a ≤ pathDepth b) :=
      hpw.imp (fun h => depthThen_le h)
    show sortByDepth (dedupPaths (orderedResourcePaths paths)) = orderedResourcePaths paths
    rw [dedupPaths_of_nodup _ hnd, sortByDepth_of_sorted _ hsorted]

/-- Witness of C10: the root path of the input of the test comes first. -/
theorem orderedResourcePaths_spec_witness :
    "." ∈ ["src", ".", "src", "pkg"] ∧
      (orderedResourcePaths ["src", ".", "src", "pkg"]).head? = some "." :=
  ⟨by decide, (orderedResourcePaths_spec ["src", ".", "src", "pkg"]).2.2.2.1 (by decide)⟩

end Shai.Runtime

namespace Shai.Config

/-! ## The two loops: what they leave and which error they return -/

theorem mountViolation_of_valid (L : GoLib) (pfx : String) (i : Nat) (m : Mount)
    (h : mountValid L m) : mountViolation L pfx i m = none := by
  unfold mountViolation
  rw [if_pos h]

theorem mountViolation_of_invalid (L : GoLib) (pfx : String) (i : Nat) (m : Mount)
    (h : ¬ mountValid L m) :
    mountViolation L pfx i m =
      some (pfx ++ " mount[" ++ toString i ++ "] has invalid mode " ++ L.quote m.Mode) := by
  unfold mountViolation
  rw [if_neg h]

/-- One step of the mount loop on a mount that is accepted. -/
theorem normalizeMounts_cons_valid (L : GoLib) (pfx : String) (m : Mount) (ms : List Mount)
    (i : Nat) (h : mountValid L m) :
    normalizeMounts L pfx i (m :: ms) =
      (canonMount L m :: (normalizeMounts L pfx (i + 1) ms).1,
        (normalizeMounts L pfx (i + 1) ms).2) := by
  simp only [normalizeMounts, canonMount]
  split_ifs with hbad
  · exfalso
    rcases h with h1 | h1
    · exact hbad.1 h1
    · exact hbad.2 h1
  · rfl

/-- One step of the mount loop on a mount that is not accepted. -/
theorem normalizeMounts_cons_invalid (L : GoLib) (pfx : String) (m : Mount) (ms : List Mount)
    (i : Nat) (h : ¬ mountValid L m) :
    normalizeMounts L pfx i (m :: ms) = (m :: ms, mountViolation L pfx i m) := by
  rw [mountViolation_of_invalid L pfx i m h]
  simp only [normalizeMounts]
  split_ifs with hbad
  · rfl
  · exfalso
    apply h
    unfold mountValid
    by_contra hc
    exact hbad ⟨fun a => hc (Or.inl a), fun a => hc (Or.inr a)⟩

theorem callViolation_of_valid (L : GoLib) (pfx : String) (j : Nat) (c : Call)
    (h : callValid L c) : callViolation L pfx j c = none := by
  obtain ⟨hn, hcmd, ha⟩ := h
  unfold callViolation
  rw [if_neg hn, if_neg hcmd]
  by_cases he : c.AllowedArgs = ""
  · rw [if_pos he]
  · have hok := (compiles_iff L _).1 (ha.resolve_left he)
    rw [if_neg he, hok]

theorem callViolation_of_invalid (L : GoLib) (pfx : String) (j : Nat) (c : Call)
    (h : ¬ callValid L c) : ∃ e, callViolation L pfx j c = some e := by
  unfold callViolation
  by_cases hn : trimSpace c.Name = ""
  · exact ⟨_, by rw [if_pos hn]⟩
  · by_cases hcmd : trimSpace c.Command = ""
    · exact ⟨_, by rw [if_neg hn, if_pos hcmd]⟩
    · by_cases he : c.AllowedArgs = ""
      · exact absurd ⟨hn, hcmd, Or.inl he⟩ h
      · have hbad : compiles L c.AllowedArgs = false := by
          by_contra hcon
          exact h ⟨hn, hcmd, Or.inr (by simpa using hcon)⟩
        obtain ⟨err, herr⟩ := (compiles_false_iff L _).1 hbad
        exact ⟨_, by rw [if_neg hn, if_neg hcmd, if_neg he, herr]⟩

/-- One step of the call loop on a call that is not accepted: the error is the first
violation of the call. -/
theorem normalizeCalls_cons_violation (L : GoLib) (pfx : String) (c : Call) (cs : List Call)
    (i : Nat) (h : ¬ callValid L c) :
    normalizeCalls L pfx i (c :: cs) = (c :: cs, callViolation L pfx i c) := by
  simp only [normalizeCalls, callViolation]
  by_cases hn : trimSpace c.Name = ""
  · rw [if_pos hn, if_pos hn]
  · by_cases hcmd : trimSpace c.Command = ""
    · rw [if_neg hn, if_pos hcmd, if_neg hn, if_pos hcmd]
    · by_cases he : c.AllowedArgs = ""
      · exact absurd ⟨hn, hcmd, Or.inl he⟩ h
      · have hbad : compiles L c.AllowedArgs = false := by
          by_contra hcon
          exact h ⟨hn, hcmd, Or.inr (by simpa using hcon)⟩
        obtain ⟨err, herr⟩ := (compiles_false_iff L _).1 hbad
        rw [if_neg hn, if_neg hcmd, if_pos he, if_neg hn, if_neg hcmd, if_neg he, herr]

/-- The error of the mount loop is the violation of the first mount that has one. -/
theorem normalizeMounts_snd_eq (L : GoLib) (pfx : String) :
    ∀ (ms : List Mount) (k : Nat),
      (normalizeMounts L pfx k ms).2 =
        ((ms.enumFrom k).map (fun p => mountViolation L pfx p.1 p.2)).findSome? id
  | [], _ => rfl
  | m :: ms, k => by
    have ih := normalizeMounts_snd_eq L pfx ms (k + 1)
    by_cases h : mountValid L m
    · rw [normalizeMounts_cons_valid L pfx m ms k h]
      simp only [List.enumFrom_cons, List.map_cons, List.findSome?_cons,
        mountViolation_of_valid L pfx k m h, id]
      exact ih
    · rw [normalizeMounts_cons_invalid L pfx m ms k h]
      simp only [List.enumFrom_cons, List.map_cons, List.findSome?_cons,
        mountViolation_of_invalid L pfx k m h, id]

/-- The error of the call loop is the first violation of the first call that has one. -/
theorem normalizeCalls_snd_eq (L : GoLib) (pfx : String) :
    ∀ (cs : List Call) (k : Nat),
      (normalizeCalls L pfx k cs).2 =
        ((cs.enumFrom k).map (fun p => callViolation L pfx p.1 p.2)).findSome? id
  | [], _ => rfl
  | c :: cs, k => by
    have ih := normalizeCalls_snd_eq L pfx cs (k + 1)
    by_cases h : callValid L c
    · rw [normalizeCalls_cons_valid L pfx c cs k h]
      simp only [List.enumFrom_cons, List.map_cons, List.findSome?_cons,
        callViolation_of_valid L pfx k c h, id]
      exact ih
    · rw [normalizeCalls_cons_violation L pfx c cs k h]
      obtain ⟨e, he⟩ := callViolation_of_invalid L pfx k c h
      simp only [List.enumFrom_cons, List.map_cons, List.findSome?_cons, he, id]

/-- The mounts the loop leaves when it stops at index `i`: canonical before `i`, untouched
from `i` on. -/
theorem normalizeMounts_fst_first_invalid (L : GoLib) (pfx : String) :
    ∀ (ms : List Mount) (k i : Nat) (m : Mount), ms[i]? = some m → ¬ mountValid L m →
      (∀ j, j < i → ∀ x, ms[j]? = some x → mountValid L x) →
      (normalizeMounts L pfx k ms).1 = (ms.take i).map (canonMount L) ++ ms.drop i
  | [], _, i, m, hm, _, _ => by simp at hm
  | a :: ms, k, 0, m, hm, hbad, _ => by
    simp only [List.getElem?_cons_zero, Option.some.injEq] at hm
    subst hm
    rw [normalizeMounts_cons_invalid L pfx a ms k hbad]
    simp
  | a :: ms, k, i + 1, m, hm, hbad, hlow => by
    have ha : mountValid L a := hlow 0 (Nat.succ_pos i) a (by simp)
    simp only [List.getElem?_cons_succ] at hm
    have ih := normalizeMounts_fst_first_invalid L pfx ms (k + 1) i m hm hbad
      (fun j hj x hx => hlow (j + 1) (Nat.succ_lt_succ hj) x (by simpa using hx))
    rw [normalizeMounts_cons_valid L pfx a ms k ha]
    simp [ih]

/-- The calls the loop leaves when it stops at index `j`: matchers attached before `j`,
untouched from `j` on. -/
theorem normalizeCalls_fst_first_invalid (L : GoLib) (pfx : String) :
    ∀ (cs : List Call) (k j : Nat) (c : Call), cs[j]? = some c → ¬ callValid L c →
      (∀ n, n < j → ∀ x, cs[n]? = some x → callValid L x) →
      (normalizeCalls L pfx k cs).1 = (cs.take j).map attachRx ++ cs.drop j
  | [], _, j, c, hc, _, _ => by simp at hc
  | a :: cs, k, 0, c, hc, hbad, _ => by
    simp only [List.getElem?_cons_zero, Option.some.injEq] at hc
    subst hc
    rw [normalizeCalls_cons_violation L pfx a cs k hbad]
    simp
  | a :: cs, k, j + 1, c, hc, hbad, hlow => by
    have ha : callValid L a := hlow 0 (Nat.succ_pos j) a (by simp)
    simp only [List.getElem?_cons_succ] at hc
    have ih := normalizeCalls_fst_first_invalid L pfx cs (k + 1) j c hc hbad
      (fun n hn x hx => hlow (n + 1) (Nat.succ_lt_succ hn) x (by simpa using hx))
    rw [normalizeCalls_cons_valid L pfx a cs k ha]
    simp [ih]

/-- The error of the call loop when it stops at index `j`. -/
theorem normalizeCalls_snd_first_invalid (L : GoLib) (pfx : String) :
    ∀ (cs : List Call) (k j : Nat) (c : Call), cs[j]? = some c → ¬ callValid L c →
      (∀ n, n < j → ∀ x, cs[n]? = some x → callValid L x) →
      (normalizeCalls L pfx k cs).2 = callViolation L pfx (k + j) c
  | [], _, j, c, hc, _, _ => by simp at hc
  | a :: cs, k, 0, c, hc, hbad, _ => by
    simp only [List.getElem?_cons_zero, Option.some.injEq] at hc
    subst hc
    rw [normalizeCalls_cons_violation L pfx a cs k hbad]
    rfl
  | a :: cs, k, j + 1, c, hc, hbad, hlow => by
    have ha : callValid L a := hlow 0 (Nat.succ_pos j) a (by simp)
    simp only [List.getElem?_cons_succ] at hc
    have ih := normalizeCalls_snd_first_invalid L pfx cs (k + 1) j c hc hbad
      (fun n hn x hx => hlow (n + 1) (Nat.succ_lt_succ hn) x (by simpa using hx))
    rw [normalizeCalls_cons_valid L pfx a cs k ha]
    have e : k + 1 + j = k + (j + 1) := by omega
    simp only [ih, e]

/-- The mount loop writes modes only, whether it fails or not. -/
theorem normalizeMounts_fst_frame (L : GoLib) (pfx : String) :
    ∀ (ms : List Mount) (k : Nat),
      ((normalizeMounts L pfx k ms).1).map (fun m => (m.Source, m.Target)) =
        ms.map (fun m => (m.Source, m.Target))
  | [], _ => rfl
  | m :: ms, k => by
    have ih := normalizeMounts_fst_frame L pfx ms (k + 1)
    by_cases h : mountValid L m
    · rw [normalizeMounts_cons_valid L pfx m ms k h]
      simp only [List.map_cons, ih]
      rfl
    · rw [normalizeMounts_cons_invalid L pfx m ms k h]

/-- The call loop writes matchers only, whether it fails or not. -/
theorem normalizeCalls_fst_frame (L : GoLib) (pfx : String) :
    ∀ (cs : List Call) (k : Nat),
      ((normalizeCalls L pfx k cs).1).map
          (fun c => (c.Name, c.Description, c.Command, c.AllowedArgs)) =
        cs.map (fun c => (c.Name, c.Description, c.Command, c.AllowedArgs))
  | [], _ => rfl
  | c :: cs, k => by
    have ih := normalizeCalls_fst_frame L pfx cs (k + 1)
    by_cases h : callValid L c
    · rw [normalizeCalls_cons_valid L pfx c cs k h]
      simp only [List.map_cons, ih]
      congr 1
      unfold attachRx
      by_cases he : c.AllowedArgs = "" <;> simp [he]
    · rw [normalizeCalls_cons_violation L pfx c cs k h]

theorem canonMount_mode (L : GoLib) (m : Mount) (h : mountValid L m) :
    (canonMount L m).Mode = "ro" ∨ (canonMount L m).Mode = "rw" := h

end Shai.Config

namespace Shai.Config

/-! ## The normalizer: matchers, frame, failure state and error precedence -/

/-- C17, as amended: when `NormalizeResourceSet` returns no error on a non-nil resource set,
every call whose allowed-args are not empty (tested without trimming) carries afterwards the
matcher compiled from exactly that string, and every call whose allowed-args are empty
carries the matcher it carried before: none if it carried none. -/
theorem normalize_matcher_agrees (L : GoLib) (r : ResourceSet) (label : String)
    (h : (NormalizeResourceSet L (some r) label).2 = none) :
    ∃ r', (NormalizeResourceSet L (some r) label).1 = some r' ∧
      ∀ (i : Nat) (c : Call), r.Calls[i]? = some c →
        ∃ c', r'.Calls[i]? = some c' ∧ c'.AllowedArgs = c.AllowedArgs ∧
          (c.AllowedArgs ≠ "" →
            ∃ rx, regexpCompile L c.AllowedArgs = .ok rx ∧ c'.allowedRx = some rx) ∧
          (c.AllowedArgs = "" → c'.allowedRx = c.allowedRx) ∧
          (c.AllowedArgs = "" → c.allowedRx = none → c'.allowedRx = none) := by
  obtain ⟨_, hc⟩ := (NormalizeResourceSet_snd_none_iff L r label).1 h
  refine ⟨_, NormalizeResourceSet_fst_of_ok L r label h, ?_⟩
  intro i c hi
  have hv := hc c (List.getElem?_mem hi)
  refine ⟨attachRx c, by simp [hi], ?_, ?_, ?_, ?_⟩
  · unfold attachRx
    by_cases he : c.AllowedArgs = "" <;> simp [he]
  · intro he
    refine ⟨⟨c.AllowedArgs⟩, (compiles_iff L _).1 (hv.2.2.resolve_left he), ?_⟩
    simp [attachRx, he]
  · intro he
    simp [attachRx, he]
  · intro he hn
    simp [attachRx, he, hn]

/-- Witness of C17 on `staleMatcherSet`, whose second call has the expression ` `. -/
theorem normalize_matcher_agrees_witness :
    (NormalizeResourceSet sampleLib (some staleMatcherSet) "test").2 = none ∧
      ∃ r', (NormalizeResourceSet sampleLib (some staleMatcherSet) "test").1 = some r' ∧
        ∃ c', r'.Calls[1]? = some c' ∧ c'.allowedRx = some ⟨" "⟩ := by
  refine ⟨by decide, ?_⟩
  obtain ⟨r', h1, h2⟩ :=
    normalize_matcher_agrees sampleLib staleMatcherSet "test" (by decide)
  obtain ⟨c', hc', _, h3, _⟩ := h2 1 ⟨"blank", "", "echo hi", " ", none⟩ (by decide)
  obtain ⟨rx, hrx, hm⟩ := h3 (by decide)
  have e : rx = ⟨" "⟩ := regexpCompile_ok sampleLib _ rx hrx
  exact ⟨r', h1, c', hc', by rw [hm, e]⟩

/-- C17, as stated, fails: `staleMatcherSet` is accepted, and its first call, whose
allowed-args are empty, carries the matcher `^a$` afterwards. -/
theorem normalize_keeps_stale_matcher :
    (NormalizeResourceSet sampleLib (some staleMatcherSet) "test").2 = none ∧
      ((NormalizeResourceSet sampleLib (some staleMatcherSet) "test").1).map
          (fun r' => r'.Calls.map (fun c => (c.AllowedArgs, c.allowedRx))) =
        some [("", some ⟨"^a$"⟩), (" ", some ⟨" "⟩)] :=
  ⟨by decide, by decide⟩

/-- C18: whether `NormalizeResourceSet` succeeds or fails, it changes mount modes and
compiled matchers only: the number and order of mounts and calls, the source and target of
every mount, the name, description, command and allowed-args of every call, and the vars,
HTTP hosts, ports, root commands and options of the set are as before; a nil set stays
nil. -/
theorem normalize_frame (L : GoLib) (label : String) :
    (NormalizeResourceSet L none label).1 = none ∧
      ∀ r : ResourceSet, ∃ r', (NormalizeResourceSet L (some r) label).1 = some r' ∧
        r'.Mounts.length = r.Mounts.length ∧
        r'.Mounts.map (fun m => (m.Source, m.Target)) =
          r.Mounts.map (fun m => (m.Source, m.Target)) ∧
        r'.Calls.length = r.Calls.length ∧
        r'.Calls.map (fun c => (c.Name, c.Description, c.Command, c.AllowedArgs)) =
          r.Calls.map (fun c => (c.Name, c.Description, c.Command, c.AllowedArgs)) ∧
        r'.Vars = r.Vars ∧ r'.HTTP = r.HTTP ∧ r'.Ports = r.Ports ∧
        r'.RootCommands = r.RootCommands ∧ r'.Options = r.Options := by
  refine ⟨rfl, ?_⟩
  intro r
  have hmf := normalizeMounts_fst_frame L (labelPrefix label) r.Mounts 0
  have hcf := normalizeCalls_fst_frame L (labelPrefix label) r.Calls 0
  have hml := congrArg List.length hmf
  have hcl := congrArg List.length hcf
  simp only [List.length_map] at hml hcl
  cases hm : (normalizeMounts L (labelPrefix label) 0 r.Mounts).2 with
  | some e =>
    rw [NormalizeResourceSet_of_mounts_error L r label e hm]
    exact ⟨_, rfl, hml, hmf, rfl, rfl, rfl, rfl, rfl, rfl, rfl⟩
  | none =>
    rw [NormalizeResourceSet_of_mounts_ok L r label hm]
    exact ⟨_, rfl, hml, hmf, hcl, hcf, rfl, rfl, rfl, rfl, rfl⟩

/-- C19: a failed normalization is not undone.  When it fails on the mount at index `i`,
the mounts before `i` hold their canonical mode, `ro` or `rw`, and the mount at `i`, the
later mounts and all calls are as before.  When it fails on the call at index `j`, all
mounts hold their canonical mode, the calls before `j` whose allowed-args are not empty
carry their matcher, and the call at `j` and the later calls are as before.  For the mounts
`RW`, `bad` the call fails and leaves the modes `rw`, `bad`. -/
theorem normalize_failure_state (L : GoLib) (r : ResourceSet) (label : String) :
    (∀ (i : Nat) (m : Mount), r.Mounts[i]? = some m → ¬ mountValid L m →
      (∀ k, k < i → ∀ x, r.Mounts[k]? = some x → mountValid L x) →
      (∃ e, (NormalizeResourceSet L (some r) label).2 = some e) ∧
      ∃ r', (NormalizeResourceSet L (some r) label).1 = some r' ∧
        r'.Mounts = (r.Mounts.take i).map (canonMount L) ++ r.Mounts.drop i ∧
        (∀ x ∈ (r.Mounts.take i).map (canonMount L), x.Mode = "ro" ∨ x.Mode = "rw") ∧
        r'.Calls = r.Calls) ∧
    (∀ (j : Nat) (c : Call), (∀ m ∈ r.Mounts, mountValid L m) →
      r.Calls[j]? = some c → ¬ callValid L c →
      (∀ k, k < j → ∀ x, r.Calls[k]? = some x → callValid L x) →
      (∃ e, (NormalizeResourceSet L (some r) label).2 = some e) ∧
      ∃ r', (NormalizeResourceSet L (some r) label).1 = some r' ∧
        r'.Mounts = r.Mounts.map (canonMount L) ∧
        (∀ x ∈ r'.Mounts, x.Mode = "ro" ∨ x.Mode = "rw") ∧
        r'.Calls = (r.Calls.take j).map attachRx ++ r.Calls.drop j) ∧
    ((∃ e, (NormalizeResourceSet L (some badModeSet) label).2 = some e) ∧
      ((NormalizeResourceSet L (some badModeSet) label).1).map
        (fun r' => r'.Mounts.map (fun m => m.Mode)) = some ["rw", "bad"]) := by
  have mountCase : ∀ (r : ResourceSet) (i : Nat) (m : Mount), r.Mounts[i]? = some m →
      ¬ mountValid L m →
      (∀ k, k < i → ∀ x, r.Mounts[k]? = some x → mountValid L x) →
      (∃ e, (NormalizeResourceSet L (some r) label).2 = some e) ∧
      ∃ r', (NormalizeResourceSet L (some r) label).1 = some r' ∧
        r'.Mounts = (r.Mounts.take i).map (canonMount L) ++ r.Mounts.drop i ∧
        (∀ x ∈ (r.Mounts.take i).map (canonMount L), x.Mode = "ro" ∨ x.Mode = "rw") ∧
        r'.Calls = r.Calls := by
    intro r i m hm hbad hlow
    have hsnd := normalizeMounts_snd_first_invalid L (labelPrefix label) r.Mounts 0 i m hm
      hbad hlow
    have hfst := normalizeMounts_fst_first_invalid L (labelPrefix label) r.Mounts 0 i m hm
      hbad hlow
    rw [NormalizeResourceSet_of_mounts_error L r label _ hsnd]
    refine ⟨⟨_, rfl⟩, _, rfl, hfst, ?_, rfl⟩
    intro x hx
    obtain ⟨x0, hx0, rfl⟩ := List.mem_map.1 hx
    obtain ⟨k, hk⟩ := List.getElem?_of_mem hx0
    have hklt : k < i := by
      by_contra hge
      rw [List.getElem?_take_eq_none (Nat.le_of_not_lt hge)] at hk
      cases hk
    rw [List.getElem?_take_of_lt hklt] at hk
    exact hlow k hklt x0 hk
  refine ⟨mountCase r, ?_, ?_⟩
  · intro j c hms hc hbad hlow
    have hmok := (normalizeMounts_snd_none_iff L (labelPrefix label) r.Mounts 0).2 hms
    have hmfst := normalizeMounts_fst_of_valid L (labelPrefix label) r.Mounts 0 hms
    have hsnd := normalizeCalls_snd_first_invalid L (labelPrefix label) r.Calls 0 j c hc
      hbad hlow
    have hfst := normalizeCalls_fst_first_invalid L (labelPrefix label) r.Calls 0 j c hc
      hbad hlow
    obtain ⟨e, he⟩ := callViolation_of_invalid L (labelPrefix label) (0 + j) c hbad
    rw [NormalizeResourceSet_of_mounts_ok L r label hmok]
    refine ⟨⟨e, by rw [hsnd, he]⟩, _, rfl, hmfst, ?_, hfst⟩
    intro x hx
    simp only [hmfst] at hx
    obtain ⟨x0, hx0, rfl⟩ := List.mem_map.1 hx
    exact hms x0 hx0
  · have hbad : ¬ mountValid L ⟨"/tmp", "/mnt", "bad"⟩ := by
      have e : mountMode L ⟨"/tmp", "/mnt", "bad"⟩ = "bad" := rfl
      unfold mountValid
      rw [e]
      decide
    have hgood : mountValid L ⟨"/tmp", "/mnt", "RW"⟩ := Or.inr rfl
    obtain ⟨herr, r', hr', hmounts, _, _⟩ :=
      mountCase badModeSet 1 ⟨"/tmp", "/mnt", "bad"⟩ rfl hbad (by
        intro k hk x hx
        have hk0 : k = 0 := by omega
        subst hk0
        have hx0 : x = ⟨"/tmp", "/mnt", "RW"⟩ := by
          simpa [badModeSet] using hx.symm
        subst hx0
        exact hgood)
    refine ⟨herr, ?_⟩
    rw [hr']
    simp only [Option.map_some', hmounts]
    rfl

/-- Witness of C19: `manyViolationsSet` fails on its mount 1 and keeps the canonical mode of
mount 0; `badRegexSet` fails on its call 1 and keeps the matcher attached to call 0. -/
theorem normalize_failure_state_witness :
    (∃ r', (NormalizeResourceSet sampleLib (some manyViolationsSet) "test").1 = some r' ∧
        r'.Mounts = (manyViolationsSet.Mounts.take 1).map (canonMount sampleLib) ++
          manyViolationsSet.Mounts.drop 1) ∧
      ∃ r', (NormalizeResourceSet sampleLib (some badRegexSet) "test").1 = some r' ∧
        r'.Calls = (badRegexSet.Calls.take 1).map attachRx ++ badRegexSet.Calls.drop 1 := by
  constructor
  · obtain ⟨_, r', h1, h2, _⟩ :=
      (normalize_failure_state sampleLib manyViolationsSet "test").1 1
        ⟨"/tmp", "/mnt", "bad"⟩ (by decide) (by decide) (by
          intro k hk x hx
          have hk0 : k = 0 := by omega
          subst hk0
          have hx0 : x = ⟨"/tmp", "/mnt", "rw"⟩ := by
            simpa [manyViolationsSet] using hx.symm
          subst hx0
          decide)
    exact ⟨r', h1, h2⟩
  · obtain ⟨_, r', h1, _, _, h2⟩ :=
      (normalize_failure_state sampleLib badRegexSet "test").2.1 1
        ⟨"do", "", "echo hi", "(", none⟩ (by decide) (by decide) (by decide) (by
          intro k hk x hx
          have hk0 : k = 0 := by omega
          subst hk0
          have hx0 : x = ⟨"first", "", "echo hi", "^a$", none⟩ := by
            simpa [badRegexSet] using hx.symm
          subst hx0
          decide)
    exact ⟨r', h1, h2⟩

end Shai.Config

namespace Shai.Config

/-- The error of `NormalizeResourceSet` is the first violation of the set. -/
theorem NormalizeResourceSet_snd_eq_firstViolation (L : GoLib) (r : ResourceSet)
    (label : String) :
    (NormalizeResourceSet L (some r) label).2 = firstViolation L r label := by
  have hm := normalizeMounts_snd_eq L (labelPrefix label) r.Mounts 0
  have hc := normalizeCalls_snd_eq L (labelPrefix label) r.Calls 0
  unfold firstViolation List.enum
  rw [List.findSome?_append, ← hm, ← hc]
  cases h : (normalizeMounts L (labelPrefix label) 0 r.Mounts).2 with
  | some e => rw [NormalizeResourceSet_of_mounts_error L r label e h]; rfl
  | none => rw [NormalizeResourceSet_of_mounts_ok L r label h]; rfl

/-- C20: the error `NormalizeResourceSet` returns is the first violation in the order: all
mounts by ascending index, then all calls by ascending index, and within a call the name,
then the command, then the allowed-args expression.  So an invalid mount is reported
whatever the calls are, and a call with a blank name reports the missing name with its
index, whatever its command and its expression are. -/
theorem normalize_error_precedence (L : GoLib) (r : ResourceSet) (label : String) :
    (NormalizeResourceSet L (some r) label).2 = firstViolation L r label ∧
    (∀ (i : Nat) (m : Mount), r.Mounts[i]? = some m → ¬ mountValid L m →
      (∀ k, k < i → ∀ x, r.Mounts[k]? = some x → mountValid L x) →
      (NormalizeResourceSet L (some r) label).2 =
        some (labelPrefix label ++ " mount[" ++ toString i ++ "] has invalid mode " ++
          L.quote m.Mode)) ∧
    (∀ (j : Nat) (c : Call), (∀ m ∈ r.Mounts, mountValid L m) → r.Calls[j]? = some c →
      (∀ k, k < j → ∀ x, r.Calls[k]? = some x → callValid L x) →
      (trimSpace c.Name = "" →
        (NormalizeResourceSet L (some r) label).2 =
          some (labelPrefix label ++ " call[" ++ toString j ++ "] missing name")) ∧
      (trimSpace c.Name ≠ "" → trimSpace c.Command = "" →
        (NormalizeResourceSet L (some r) label).2 =
          some (labelPrefix label ++ " call[" ++ toString j ++ "] missing command")) ∧
      (trimSpace c.Name ≠ "" → trimSpace c.Command ≠ "" → c.AllowedArgs ≠ "" →
        ∀ err, regexpCompile L c.AllowedArgs = .error err →
        (NormalizeResourceSet L (some r) label).2 =
          some (labelPrefix label ++ " call[" ++ c.Name ++ "] invalid allowed-args regex: " ++
            err))) := by
  refine ⟨NormalizeResourceSet_snd_eq_firstViolation L r label, ?_, ?_⟩
  · intro i m hm hbad hlow
    have hsnd := normalizeMounts_snd_first_invalid L (labelPrefix label) r.Mounts 0 i m hm
      hbad hlow
    rw [NormalizeResourceSet_of_mounts_error L r label _ hsnd, Nat.zero_add]
  · intro j c hms hc hlow
    have hmok := (normalizeMounts_snd_none_iff L (labelPrefix label) r.Mounts 0).2 hms
    have key : ¬ callValid L c → (NormalizeResourceSet L (some r) label).2 =
        callViolation L (labelPrefix label) j c := by
      intro hbad
      have hsnd := normalizeCalls_snd_first_invalid L (labelPrefix label) r.Calls 0 j c hc
        hbad hlow
      rw [NormalizeResourceSet_of_mounts_ok L r label hmok, hsnd, Nat.zero_add]
    refine ⟨?_, ?_, ?_⟩
    · intro hn
      rw [key (fun hv => hv.1 hn)]
      unfold callViolation
      rw [if_pos hn]
    · intro hn hcmd
      rw [key (fun hv => hv.2.1 hcmd)]
      unfold callViolation
      rw [if_neg hn, if_pos hcmd]
    · intro hn hcmd he err herr
      have hbad : ¬ callValid L c := by
        intro hv
        have hok := (compiles_iff L _).1 (hv.2.2.resolve_left he)
        rw [hok] at herr
        cases herr
      rw [key hbad]
      unfold callViolation
      rw [if_neg hn, if_neg hcmd, if_neg he, herr]

/-- Witness of C20: `manyViolationsSet`, with an invalid mount and an invalid call, reports
the mount; `callViolationsSet`, whose call 1 has a blank name, a blank command and an
expression that does not compile, reports the missing name of call 1. -/
theorem normalize_error_precedence_witness :
    (NormalizeResourceSet sampleLib (some manyViolationsSet) "test").2 =
        some "resource test mount[1] has invalid mode \"bad\"" ∧
      (NormalizeResourceSet sampleLib (some callViolationsSet) "test").2 =
        some "resource test call[1] missing name" := by
  constructor
  · have h := (normalize_error_precedence sampleLib manyViolationsSet "test").2.1 1
      ⟨"/tmp", "/mnt", "bad"⟩ (by decide) (by decide) (by
        intro k hk x hx
        have hk0 : k = 0 := by omega
        subst hk0
        have hx0 : x = ⟨"/tmp", "/mnt", "rw"⟩ := by
          simpa [manyViolationsSet] using hx.symm
        subst hx0
        decide)
    rw [h]
    decide
  · have h := ((normalize_error_precedence sampleLib callViolationsSet "test").2.2 1
      ⟨" ", "", "", "(", none⟩ (by decide) (by decide) (by
        intro k hk x hx
        have hk0 : k = 0 := by omega
        subst hk0
        have hx0 : x = ⟨"ok", "", "echo hi", "", none⟩ := by
          simpa [callViolationsSet, manyViolationsSet] using hx.symm
        subst hx0
        decide)).1 (by decide)
    rw [h]
    decide

end Shai.Config

namespace Shai.Pkg

open Shai.Config

/-! ## The sandbox configuration: defaults and the copy into the runtime configuration -/

theorem LoadSandboxConfig_eq (L : GoLib) (workspace : String)
    (opts : List (Option (SandboxConfig → SandboxConfig))) :
    LoadSandboxConfig L workspace opts =
      match SandboxConfig.normalize L (some (configured workspace opts)) with
      | (_, some err) => .error err
      | (some cfg1, none) => .ok cfg1
      | (none, none) => .ok (configured workspace opts) := rfl

/-- The method `normalize` on a configuration whose working directory is known. -/
theorem normalize_of_workingDir (L : GoLib) (cfg : SandboxConfig)
    (h : trimSpace cfg.WorkingDir ≠ "") :
    SandboxConfig.normalize L (some cfg) =
      (some (if trimSpace cfg.ConfigFile = "" then
          { cfg with ConfigFile := L.filepathJoin cfg.WorkingDir L.DefaultConfigRelPath }
        else cfg), none) := by
  unfold SandboxConfig.normalize
  by_cases hf : trimSpace cfg.ConfigFile = "" <;> simp [h, hf]

/-- The method `normalize` on a configuration without working directory, when the lookup of
the current directory succeeds. -/
theorem normalize_of_getwd (L : GoLib) (cfg : SandboxConfig) (wd : String)
    (h : trimSpace cfg.WorkingDir = "") (hwd : L.getwd = .ok wd) :
    SandboxConfig.normalize L (some cfg) =
      (some (if trimSpace cfg.ConfigFile = "" then
          { cfg with WorkingDir := wd,
                     ConfigFile := L.filepathJoin wd L.DefaultConfigRelPath }
        else { cfg with WorkingDir := wd }), none) := by
  unfold SandboxConfig.normalize
  by_cases hf : trimSpace cfg.ConfigFile = "" <;> simp [h, hf, hwd]

/-- C15: when the lookup of the current directory, if it is needed, succeeds,
`LoadSandboxConfig` returns no error and a configuration whose working directory is the
configured one when that is not blank and the current directory otherwise, and whose
configuration file is the configured one when that is not blank and otherwise
`filepath.Join` of the final working directory and `DefaultConfigRelPath`.  Without options
the configured working directory is the workspace and the configured file is empty. -/
theorem LoadSandboxConfig_defaults (L : GoLib) (workspace : String)
    (opts : List (Option (SandboxConfig → SandboxConfig))) (wd : String)
    (hwd : trimSpace (configured workspace opts).WorkingDir = "" → L.getwd = .ok wd) :
    (∃ cfg, LoadSandboxConfig L workspace opts = .ok cfg ∧
      cfg.WorkingDir =
        (if trimSpace (configured workspace opts).WorkingDir ≠ "" then
          (configured workspace opts).WorkingDir
        else wd) ∧
      cfg.ConfigFile =
        (if trimSpace (configured workspace opts).ConfigFile ≠ "" then
          (configured workspace opts).ConfigFile
        else L.filepathJoin cfg.WorkingDir L.DefaultConfigRelPath)) ∧
    (configured workspace []).WorkingDir = workspace ∧
    (configured workspace []).ConfigFile = "" := by
  refine ⟨?_, rfl, rfl⟩
  rw [LoadSandboxConfig_eq]
  by_cases h : trimSpace (configured workspace opts).WorkingDir = ""
  · rw [normalize_of_getwd L _ wd h (hwd h)]
    by_cases hf : trimSpace (configured workspace opts).ConfigFile = ""
    · exact ⟨_, rfl, by simp [h, hf], by simp [hf]⟩
    · exact ⟨_, rfl, by simp [h, hf], by simp [hf]⟩
  · rw [normalize_of_workingDir L _ h]
    by_cases hf : trimSpace (configured workspace opts).ConfigFile = ""
    · exact ⟨_, rfl, by simp [h, hf], by simp [h, hf]⟩
    · exact ⟨_, rfl, by simp [h, hf], by simp [hf]⟩

/-- Witness of C15 on the call of `TestLoadSandboxConfigDefaults`, and on a call with a
workspace and a configuration file. -/
theorem LoadSandboxConfig_defaults_witness :
    (∃ cfg, LoadSandboxConfig sampleLib "" [] = .ok cfg ∧
      cfg.WorkingDir = "/home/dev" ∧ cfg.ConfigFile = "/home/dev/.shai/config.yaml") ∧
    (∃ cfg, LoadSandboxConfig noWdLib "/src" [WithConfigFile "/etc/shai.yaml", none] = .ok cfg ∧
      cfg.WorkingDir = "/src" ∧ cfg.ConfigFile = "/etc/shai.yaml") := by
  constructor
  · obtain ⟨cfg, h1, h2, h3⟩ :=
      (LoadSandboxConfig_defaults sampleLib "" [] "/home/dev" (fun _ => rfl)).1
    refine ⟨cfg, h1, h2, ?_⟩
    rw [h3, h2]
    decide
  · obtain ⟨cfg, h1, h2, h3⟩ :=
      (LoadSandboxConfig_defaults noWdLib "/src" [WithConfigFile "/etc/shai.yaml", none] ""
        (fun h => absurd h (by decide))).1
    exact ⟨cfg, h1, h2, h3⟩

/-- C16: for a configuration whose working directory and configuration file are not blank
and whose prepend and append sets are accepted, `runtimeConfig` returns a runtime
configuration with the same working directory, configuration file, template vars,
read-write paths, resource-set names, verbosity, writers, stop timeout, image and user
overrides, host ids, privilege and display flags, and a post-setup command that is nil
exactly when the one of the input is nil and otherwise has the same command, environment,
working directory and TTY flag. -/
theorem runtimeConfig_faithful (L : GoLib) (cfg : SandboxConfig)
    (hw : trimSpace cfg.WorkingDir ≠ "") (hf : trimSpace cfg.ConfigFile ≠ "")
    (hp : ∀ s, cfg.PrependResourceSet = some s →
      (NormalizeResourceSet L (some (copyResourceSet s)) "prepend").2 = none)
    (ha : ∀ s, cfg.AppendResourceSet = some s →
      (NormalizeResourceSet L (some (copyResourceSet s)) "append").2 = none) :
    ∃ rc, SandboxConfig.runtimeConfig L cfg = .ok rc ∧
      rc.WorkingDir = cfg.WorkingDir ∧ rc.ConfigFile = cfg.ConfigFile ∧
      rc.TemplateVars = cfg.TemplateVars ∧ rc.ReadWritePaths = cfg.ReadWritePaths ∧
      rc.ResourceSets = cfg.ResourceSets ∧ rc.Verbose = cfg.Verbose ∧
      rc.Stdout = cfg.Stdout ∧ rc.Stderr = cfg.Stderr ∧
      rc.GracefulStopTimeout = cfg.GracefulStopTimeout ∧
      rc.ImageOverride = cfg.ImageOverride ∧ rc.UserOverride = cfg.UserOverride ∧
      rc.HostUID = cfg.HostUID ∧ rc.HostGID = cfg.HostGID ∧
      rc.Privileged = cfg.Privileged ∧ rc.ShowProgress = cfg.ShowProgress ∧
      rc.ShowScriptOutput = cfg.ShowScriptOutput ∧
      (rc.PostSetupExec = none ↔ cfg.PostSetupExec = none) ∧
      (∀ e, cfg.PostSetupExec = some e →
        ∃ x, rc.PostSetupExec = some x ∧ x.Command = e.Command ∧ x.Env = e.Env ∧
          x.Workdir = e.Workdir ∧ x.UseTTY = e.UseTTY) := by
  have hnorm : ((SandboxConfig.normalize L (some cfg)).1).getD cfg = cfg := by
    rw [normalize_of_workingDir L cfg hw, if_neg hf]
    rfl
  have hpre : ∃ p, convertResourceSet L cfg.PrependResourceSet "prepend" = .ok p := by
    cases hs : cfg.PrependResourceSet with
    | none => exact ⟨none, rfl⟩
    | some s => exact ⟨_, convertResourceSet_of_ok L s _ (hp s hs)⟩
  have happ : ∃ p, convertResourceSet L cfg.AppendResourceSet "append" = .ok p := by
    cases hs : cfg.AppendResourceSet with
    | none => exact ⟨none, rfl⟩
    | some s => exact ⟨_, convertResourceSet_of_ok L s _ (ha s hs)⟩
  obtain ⟨p, hp'⟩ := hpre
  obtain ⟨a, ha'⟩ := happ
  rw [runtimeConfig_eq, hp', ha', hnorm]
  refine ⟨_, rfl, rfl, rfl, rfl, rfl, rfl, rfl, rfl, rfl, rfl, rfl, rfl, rfl, rfl, rfl, rfl, rfl,
    ?_, ?_⟩
  · cases cfg.PostSetupExec <;> simp [convertExec]
  · intro e he
    rw [he]
    exact ⟨_, rfl, rfl, rfl, rfl, rfl⟩

/-- Witness of C16 on the configuration of `TestRuntimeConfigConversion`. -/
theorem runtimeConfig_faithful_witness :
    ∃ rc, SandboxConfig.runtimeConfig sampleLib conversionConfig = .ok rc ∧
      rc.WorkingDir = "/workspace" ∧
      rc.PostSetupExec = some ⟨["echo", "hi"], [("FOO", "bar")], "/src", true⟩ := by
  obtain ⟨rc, h⟩ := runtimeConfig_faithful sampleLib conversionConfig (by decide) (by decide)
    (by
      intro s hs
      have e : s = conversionPrepend := by simpa [conversionConfig] using hs.symm
      subst e
      decide)
    (by
      intro s hs
      have e : s = conversionAppend := by simpa [conversionConfig] using hs.symm
      subst e
      decide)
  obtain ⟨h0, h1, _, _, _, _, _, _, _, _, _, _, _, _, _, _, _, _, h18⟩ := h
  obtain ⟨x, hx, hc, he, hwd, ht⟩ := h18 ⟨["echo", "hi"], [("FOO", "bar")], "/src", true⟩ rfl
  refine ⟨rc, h0, h1, ?_⟩
  rw [hx]
  cases x
  simp only at hc he hwd ht
  subst hc he hwd ht
  rfl

end Shai.Pkg

namespace Shai.Runtime

open Shai.Config

/-! ## The resolver: lemmas -/

theorem lookupSets_of_defined (cfg : Config) :
    ∀ names : List String, (∀ n ∈ names, cfg.Resources.lookup n ≠ none) →
      lookupSets cfg names =
        .ok (names.map (fun n => { Name := n, Spec := cfg.Resources.lookup n }))
  | [], _ => rfl
  | n :: ns, h => by
    have ih := lookupSets_of_defined cfg ns (fun x hx => h x (List.mem_cons_of_mem _ hx))
    have hn := h n (List.mem_cons_self _ _)
    cases hl : cfg.Resources.lookup n with
    | none => exact absurd hl hn
    | some s => simp only [lookupSets, hl, ih, List.map_cons]

theorem mostSpecific_some (q : String) :
    ∀ (rules : List ApplyRule) (r : ApplyRule), mostSpecific q rules = some r →
      r ∈ rules ∧ ruleMatches r q = true ∧
        ∀ x ∈ rules, ruleMatches x q = true →
          (pathElems x.Path).length ≤ (pathElems r.Path).length
  | [], r, h => by simp [mostSpecific] at h
  | a :: rules, r, h => by
    simp only [mostSpecific] at h
    cases hrec : mostSpecific q rules with
    | none =>
      rw [hrec] at h
      simp only at h
      by_cases ha : ruleMatches a q = true
      · rw [if_pos ha] at h
        cases h
        refine ⟨List.mem_cons_self _ _, ha, ?_⟩
        intro x hx hxm
        rcases List.mem_cons.1 hx with rfl | hx'
        · exact Nat.le_refl _
        · exfalso
          have hnone : ∀ (l : List ApplyRule), mostSpecific q l = none →
              ∀ y ∈ l, ruleMatches y q ≠ true := by
            intro l
            induction l with
            | nil => intro _ y hy; cases hy
            | cons b l ihl =>
              intro hl y hy
              simp only [mostSpecific] at hl
              cases hb : mostSpecific q l with
              | none =>
                rw [hb] at hl
                simp only at hl
                by_cases hbm : ruleMatches b q = true
                · rw [if_pos hbm] at hl; cases hl
                · rcases List.mem_cons.1 hy with rfl | hy'
                  · exact hbm
                  · exact ihl hb y hy'
              | some c =>
                rw [hb] at hl
                simp only at hl
                split_ifs at hl
          exact hnone rules hrec x hx' hxm
      · rw [if_neg ha] at h
        cases h
    | some b =>
      rw [hrec] at h
      simp only at h
      obtain ⟨hb1, hb2, hb3⟩ := mostSpecific_some q rules b hrec
      by_cases hc : ruleMatches a q = true ∧
          (pathElems b.Path).length ≤ (pathElems a.Path).length
      · rw [if_pos hc] at h
        cases h
        refine ⟨List.mem_cons_self _ _, hc.1, ?_⟩
        intro x hx hxm
        rcases List.mem_cons.1 hx with rfl | hx'
        · exact Nat.le_refl _
        · exact Nat.le_trans (hb3 x hx' hxm) hc.2
      · rw [if_neg hc] at h
        cases h
        refine ⟨List.mem_cons_of_mem _ hb1, hb2, ?_⟩
        intro x hx hxm
        rcases List.mem_cons.1 hx with rfl | hx'
        · by_contra hlt
          exact hc ⟨hxm, Nat.le_of_lt (Nat.lt_of_not_le hlt)⟩
        · exact hb3 x hx' hxm

theorem mostSpecific_none (q : String) :
    ∀ rules : List ApplyRule, mostSpecific q rules = none →
      ∀ x ∈ rules, ruleMatches x q ≠ true
  | [], _, x, hx => by cases hx
  | a :: rules, h, x, hx => by
    simp only [mostSpecific] at h
    cases hrec : mostSpecific q rules with
    | none =>
      rw [hrec] at h
      simp only at h
      by_cases ha : ruleMatches a q = true
      · rw [if_pos ha] at h; cases h
      · rcases List.mem_cons.1 hx with rfl | hx'
        · exact ha
        · exact mostSpecific_none q rules hrec x hx'
    | some b =>
      rw [hrec] at h
      simp only at h
      split_ifs at h

/-- The image is that of the first query path whose most specific rule has one. -/
theorem imageOverride_of_first (cfg : Config) :
    ∀ (qs : List String) (k : Nat) (q : String) (r : ApplyRule), qs[k]? = some q →
      mostSpecific q cfg.Apply = some r → r.Image ≠ "" →
      (∀ i, i < k → ∀ q', qs[i]? = some q' → ∀ r', mostSpecific q' cfg.Apply = some r' →
        r'.Image = "") →
      imageOverride cfg qs = r.Image
  | [], _, _, _, hq, _, _, _ => by simp at hq
  | a :: qs, 0, q, r, hq, hr, hne, _ => by
    simp only [List.getElem?_cons_zero, Option.some.injEq] at hq
    subst hq
    simp only [imageOverride, hr, if_pos hne]
  | a :: qs, k + 1, q, r, hq, hr, hne, hlow => by
    simp only [List.getElem?_cons_succ] at hq
    have ih := imageOverride_of_first cfg qs k q r hq hr hne
      (fun i hi q' hq' => hlow (i + 1) (Nat.succ_lt_succ hi) q' (by simpa using hq'))
    simp only [imageOverride]
    cases ha : mostSpecific a cfg.Apply with
    | none => exact ih
    | some b =>
      have hb : b.Image = "" := hlow 0 (Nat.succ_pos k) a (by simp) b ha
      simp only [hb, ne_eq, not_true_eq_false, if_false]
      exact ih

/-- Without a query path whose most specific rule has an image, the image is empty. -/
theorem imageOverride_of_none (cfg : Config) :
    ∀ qs : List String,
      (∀ q ∈ qs, ∀ r, mostSpecific q cfg.Apply = some r → r.Image = "") →
      imageOverride cfg qs = ""
  | [], _ => rfl
  | a :: qs, h => by
    have ih := imageOverride_of_none cfg qs (fun q hq => h q (List.mem_cons_of_mem _ hq))
    simp only [imageOverride]
    cases ha : mostSpecific a cfg.Apply with
    | none => exact ih
    | some b =>
      have hb : b.Image = "" := h a (List.mem_cons_self _ _) b ha
      simp only [hb, ne_eq, not_true_eq_false, if_false]
      exact ih

/-- What a successful resolution returns. -/
theorem resolvedResources_ok (L : GoLib) (cfg : Config) (queryPaths explicit : List String)
    (prependSet appendSet : Option ResourceSet)
    (res : List ResolvedResource) (names : List String) (img : String)
    (h : resolvedResources L cfg queryPaths explicit prependSet appendSet =
      .ok (res, names, img)) :
    names = (if explicit ≠ [] then explicit
      else discoveredNames cfg (orderedResourcePaths queryPaths)) ∧
    img = imageOverride cfg queryPaths := by
  simp only [resolvedResources] at h
  split at h
  · cases h
  · split at h
    · cases h
    · split at h
      · cases h
      · simp only [Except.ok.injEq, Prod.mk.injEq] at h
        exact ⟨h.2.1.symm, h.2.2.symm⟩

/-- A resolution succeeds when the names are defined and the anonymous sets accepted. -/
theorem resolvedResources_of_defined (L : GoLib) (cfg : Config)
    (queryPaths explicit : List String) (prependSet appendSet : Option ResourceSet)
    (names : List String)
    (hnames : names = (if explicit ≠ [] then explicit
      else discoveredNames cfg (orderedResourcePaths queryPaths)))
    (hdef : ∀ n ∈ names, cfg.Resources.lookup n ≠ none)
    (hp : (NormalizeResourceSet L prependSet "prepend").2 = none)
    (ha : (NormalizeResourceSet L appendSet "append").2 = none) :
    resolvedResources L cfg queryPaths explicit prependSet appendSet =
      .ok (anonymousEntry "prepend" (NormalizeResourceSet L prependSet "prepend").1 ++
          names.map (fun n => { Name := n, Spec := cfg.Resources.lookup n }) ++
          anonymousEntry "append" (NormalizeResourceSet L appendSet "append").1,
        names, imageOverride cfg queryPaths) := by
  have hl := lookupSets_of_defined cfg names hdef
  cases hpn : NormalizeResourceSet L prependSet "prepend" with
  | mk p1 p2 =>
    cases han : NormalizeResourceSet L appendSet "append" with
    | mk a1 a2 =>
      rw [hpn] at hp
      rw [han] at ha
      simp only at hp ha
      subst hp ha
      simp only [resolvedResources, hpn, han, ← hnames, hl]

end Shai.Runtime

namespace Shai.Runtime

open Shai.Config

/-! ## The resolver: claims -/

theorem normalize_fst_isSome (L : GoLib) (r : ResourceSet) (label : String) :
    ∃ r', (NormalizeResourceSet L (some r) label).1 = some r' := by
  cases hm : (normalizeMounts L (labelPrefix label) 0 r.Mounts).2 with
  | some e =>
    rw [NormalizeResourceSet_of_mounts_error L r label e hm]
    exact ⟨_, rfl⟩
  | none =>
    rw [NormalizeResourceSet_of_mounts_ok L r label hm]
    exact ⟨_, rfl⟩

/-- C11, as amended: for a list of explicit names that is not empty and whose names are all
defined in the configuration, and prepend and append sets that are nil or accepted,
`resolvedResources` returns no error, the explicit names in their order as applied names,
and as resolved list the prepend set, if not nil, then one entry per explicit name in that
order, then the append set, if not nil; so a prepend set is first and an append set is
last. -/
theorem resolvedResources_explicit (L : GoLib) (cfg : Config) (queryPaths explicit : List String)
    (prependSet appendSet : Option ResourceSet)
    (hne : explicit ≠ [])
    (hdef : ∀ n ∈ explicit, cfg.Resources.lookup n ≠ none)
    (hp : (NormalizeResourceSet L prependSet "prepend").2 = none)
    (ha : (NormalizeResourceSet L appendSet "append").2 = none) :
    ∃ res image,
      resolvedResources L cfg queryPaths explicit prependSet appendSet =
        .ok (res, explicit, image) ∧
      res = anonymousEntry "prepend" (NormalizeResourceSet L prependSet "prepend").1 ++
        explicit.map (fun n => { Name := n, Spec := cfg.Resources.lookup n }) ++
        anonymousEntry "append" (NormalizeResourceSet L appendSet "append").1 ∧
      (prependSet = none → appendSet = none → res.map (fun x => x.Name) = explicit) ∧
      (∀ p, prependSet = some p →
        ∃ p', (NormalizeResourceSet L prependSet "prepend").1 = some p' ∧
          res.head? = some { Name := "prepend", Spec := some p' }) ∧
      (∀ a, appendSet = some a →
        ∃ a', (NormalizeResourceSet L appendSet "append").1 = some a' ∧
          res.getLast? = some { Name := "append", Spec := some a' }) := by
  have hres := resolvedResources_of_defined L cfg queryPaths explicit prependSet appendSet
    explicit (by rw [if_pos hne]) hdef hp ha
  refine ⟨_, _, hres, rfl, ?_, ?_, ?_⟩
  · intro h1 h2
    subst h1 h2
    simp [NormalizeResourceSet, anonymousEntry, Function.comp_def]
  · intro p hpe
    subst hpe
    obtain ⟨p', hp'⟩ := normalize_fst_isSome L p "prepend"
    refine ⟨p', hp', ?_⟩
    rw [hp']
    simp [anonymousEntry]
  · intro a hae
    subst hae
    obtain ⟨a', ha'⟩ := normalize_fst_isSome L a "append"
    refine ⟨a', ha', ?_⟩
    rw [ha']
    simp [anonymousEntry]

/-- Witness of C11 on the call of `TestResolvedResourcesWithExtraSets`. -/
theorem resolvedResources_explicit_witness :
    ∃ res image,
      resolvedResources sampleLib extraSetsConfig ["."] ["opt", "base", "another"] none none =
        .ok (res, ["opt", "base", "another"], image) ∧
      res.map (fun x => x.Name) = ["opt", "base", "another"] := by
  obtain ⟨res, image, h1, _, h3, _⟩ :=
    resolvedResources_explicit sampleLib extraSetsConfig ["."] ["opt", "base", "another"]
      none none (by decide) (by decide) (by decide) (by decide)
  exact ⟨res, image, h1, h3 rfl rfl⟩

/-- C11, as stated, fails on the empty list of explicit names: the rule of the root path
activates `base`, so the applied names are not the explicit ones and the resolved list has
an entry that no explicit name asks for. -/
theorem resolvedResources_empty_explicit :
    resolvedResources sampleLib extraSetsConfig ["."] [] none none =
      .ok ([{ Name := "base", Spec := some baseSet }], ["base"], "") := by
  rfl

/-- C12, as amended: the image `resolvedResources` returns is the image of the most specific
matching rule (a matching rule with the longest scope path) of the first query path, in the
order of the caller, for which that image is not empty; when there is no such query path,
the image returned is empty.  With rules at `./foo` and `./bar` the paths `bar`, `foo` give
`bar-image` and the paths `foo`, `bar` give `foo-image`; with rules at `./bar` and
`./bar/baz` the path `bar/baz` gives `baz-image` and the path `bar/qux` gives
`bar-image`. -/
theorem resolvedResources_image (L : GoLib) (cfg : Config) (queryPaths explicit : List String)
    (prependSet appendSet : Option ResourceSet)
    (res : List ResolvedResource) (names : List String) (img : String)
    (h : resolvedResources L cfg queryPaths explicit prependSet appendSet =
      .ok (res, names, img)) :
    (∀ (k : Nat) (q : String) (r : ApplyRule), queryPaths[k]? = some q →
      mostSpecific q cfg.Apply = some r → r.Image ≠ "" →
      (∀ i, i < k → ∀ q', queryPaths[i]? = some q' → ∀ r',
        mostSpecific q' cfg.Apply = some r' → r'.Image = "") →
      img = r.Image) ∧
    ((∀ q ∈ queryPaths, ∀ r, mostSpecific q cfg.Apply = some r → r.Image = "") → img = "") ∧
    (∀ (q : String) (r : ApplyRule), mostSpecific q cfg.Apply = some r →
      r ∈ cfg.Apply ∧ ruleMatches r q = true ∧
        ∀ x ∈ cfg.Apply, ruleMatches x q = true →
          (pathElems x.Path).length ≤ (pathElems r.Path).length) ∧
    (∀ q : String, mostSpecific q cfg.Apply = none →
      ∀ x ∈ cfg.Apply, ruleMatches x q ≠ true) ∧
    (∃ rs ns, resolvedResources L overlayConfig ["bar", "foo"] [] none none =
      .ok (rs, ns, "bar-image")) ∧
    (∃ rs ns, resolvedResources L overlayConfig ["foo", "bar"] [] none none =
      .ok (rs, ns, "foo-image")) ∧
    (∃ rs ns, resolvedResources L nestedConfig ["bar/baz"] [] none none =
      .ok (rs, ns, "baz-image")) ∧
    (∃ rs ns, resolvedResources L nestedConfig ["bar/qux"] [] none none =
      .ok (rs, ns, "bar-image")) := by
  obtain ⟨_, himg⟩ := resolvedResources_ok L cfg queryPaths explicit prependSet appendSet
    res names img h
  subst himg
  exact ⟨fun k q r hq hr hne hlow => imageOverride_of_first cfg queryPaths k q r hq hr hne hlow,
    imageOverride_of_none cfg queryPaths,
    fun q r hr => mostSpecific_some q cfg.Apply r hr,
    fun q hq => mostSpecific_none q cfg.Apply hq,
    ⟨_, _, rfl⟩, ⟨_, _, rfl⟩, ⟨_, _, rfl⟩, ⟨_, _, rfl⟩⟩

/-- Witness of C12 on the first call of `TestResolvedResourcesImageOverrideByOverlay`: the
image is the one of the rule at `./bar`, the most specific for the first query path. -/
theorem resolvedResources_image_witness :
    resolvedResources sampleLib overlayConfig ["bar", "foo"] [] none none =
        .ok ([⟨"base", some emptySet⟩, ⟨"base", some emptySet⟩, ⟨"base", some emptySet⟩,
          ⟨"base", some emptySet⟩], ["base", "base", "base", "base"], "bar-image") ∧
      mostSpecific "bar" overlayConfig.Apply = some ⟨"./bar", ["base"], "bar-image"⟩ ∧
      "bar-image" = (⟨"./bar", ["base"], "bar-image"⟩ : ApplyRule).Image := by
  have h : resolvedResources sampleLib overlayConfig ["bar", "foo"] [] none none =
      .ok ([⟨"base", some emptySet⟩, ⟨"base", some emptySet⟩, ⟨"base", some emptySet⟩,
        ⟨"base", some emptySet⟩], ["base", "base", "base", "base"], "bar-image") := rfl
  have hm : mostSpecific "bar" overlayConfig.Apply = some ⟨"./bar", ["base"], "bar-image"⟩ := by
    decide
  exact ⟨h, hm, (resolvedResources_image sampleLib overlayConfig ["bar", "foo"] [] none none
    _ _ _ h).1 0 "bar" ⟨"./bar", ["base"], "bar-image"⟩ rfl hm (by decide)
    (fun i hi => absurd hi (Nat.not_lt_zero i))⟩

/-- C12, as stated, fails where no query path yields an override: on the call of
`TestResolvedResourcesWithExtraSets` the image returned is empty, as the test expects, and
not the default image `example` of the configuration. -/
theorem resolvedResources_no_default_image :
    resolvedResources sampleLib extraSetsConfig ["."] ["opt", "base", "another"] none none =
        .ok ([⟨"opt", some optSet⟩, ⟨"base", some baseSet⟩, ⟨"another", some emptySet⟩],
          ["opt", "base", "another"], "") ∧
      extraSetsConfig.Image = "example" :=
  ⟨rfl, rfl⟩

end Shai.Runtime

namespace Shai.Runtime

open Shai.Config

/-! ## The call aggregator: lemmas -/

theorem callEntry_of_valid (L : GoLib) (c : Call) (h : callValid L c) :
    callEntry L c = .ok (entryOf c) := by
  unfold callEntry entryOf
  by_cases he : c.AllowedArgs = ""
  · simp [he]
  · have hok := (compiles_iff L _).1 (h.2.2.resolve_left he)
    simp [he, hok]

theorem names_upsertEntry (e : CallEntry) :
    ∀ acc : List CallEntry,
      (upsertEntry e acc).map (fun x => x.Name) =
        if e.Name ∈ acc.map (fun x => x.Name) then acc.map (fun x => x.Name)
        else acc.map (fun x => x.Name) ++ [e.Name]
  | [] => by simp [upsertEntry]
  | a :: acc => by
    have ih := names_upsertEntry e acc
    simp only [upsertEntry]
    by_cases ha : a.Name = e.Name
    · simp [ha]
    · have hne : ¬ e.Name = a.Name := fun h => ha h.symm
      rw [if_neg ha]
      simp only [List.map_cons, ih, List.mem_cons, hne, false_or]
      split_ifs <;> simp

theorem nodup_names_upsertEntry (e : CallEntry) (acc : List CallEntry)
    (h : (acc.map (fun x => x.Name)).Nodup) :
    ((upsertEntry e acc).map (fun x => x.Name)).Nodup := by
  rw [names_upsertEntry]
  split_ifs with hm
  · exact h
  · exact List.nodup_append.2 ⟨h, List.nodup_singleton _, by
      intro a ha hb
      rw [List.mem_singleton] at hb
      exact hm (hb ▸ ha)⟩

theorem mem_names_upsertEntry (e : CallEntry) (acc : List CallEntry) (n : String) :
    n ∈ (upsertEntry e acc).map (fun x => x.Name) ↔
      n = e.Name ∨ n ∈ acc.map (fun x => x.Name) := by
  rw [names_upsertEntry]
  split_ifs with hm
  · constructor
    · exact fun h => Or.inr h
    · rintro (h | h)
      · exact h ▸ hm
      · exact h
  · rw [List.mem_append, List.mem_singleton]
    exact Or.comm

/-- Looking an entry up by name after an insertion or overwrite. -/
theorem find_upsertEntry (e : CallEntry) (n : String) :
    ∀ acc : List CallEntry,
      (upsertEntry e acc).find? (fun x => decide (x.Name = n)) =
        if e.Name = n then some e else acc.find? (fun x => decide (x.Name = n))
  | [] => by
    simp only [upsertEntry, List.find?_cons, List.find?_nil]
    by_cases h : e.Name = n <;> simp [h]
  | a :: acc => by
    have ih := find_upsertEntry e n acc
    simp only [upsertEntry]
    by_cases ha : a.Name = e.Name
    · rw [if_pos ha]
      by_cases h : e.Name = n
      · simp [List.find?_cons, h]
      · have han : ¬ a.Name = n := fun h' => h (ha ▸ h')
        simp [List.find?_cons, h, han]
    · rw [if_neg ha]
      by_cases han : a.Name = n
      · have hen : ¬ e.Name = n := fun h' => ha (han.trans h'.symm)
        simp [List.find?_cons, han, hen]
      · simp only [List.find?_cons, han, decide_False, ih]

/-- The aggregation of calls that are all valid is a fold of insertions. -/
theorem aggregateCalls_of_valid (L : GoLib) :
    ∀ (cs : List Call) (acc : List CallEntry), (∀ c ∈ cs, callValid L c) →
      aggregateCalls L acc cs = .ok (cs.foldl (fun a c => upsertEntry (entryOf c) a) acc)
  | [], _, _ => rfl
  | c :: cs, acc, h => by
    have hc := callEntry_of_valid L c (h c (List.mem_cons_self _ _))
    simp only [aggregateCalls, hc, List.foldl_cons]
    exact aggregateCalls_of_valid L cs _ (fun x hx => h x (List.mem_cons_of_mem _ hx))

theorem nodup_names_fold :
    ∀ (cs : List Call) (acc : List CallEntry), (acc.map (fun x => x.Name)).Nodup →
      ((cs.foldl (fun a c => upsertEntry (entryOf c) a) acc).map (fun x => x.Name)).Nodup
  | [], _, h => h
  | c :: cs, acc, h => by
    simp only [List.foldl_cons]
    exact nodup_names_fold cs _ (nodup_names_upsertEntry _ acc h)

theorem mem_names_fold (n : String) :
    ∀ (cs : List Call) (acc : List CallEntry),
      n ∈ (cs.foldl (fun a c => upsertEntry (entryOf c) a) acc).map (fun x => x.Name) ↔
        n ∈ acc.map (fun x => x.Name) ∨ ∃ c ∈ cs, c.Name = n
  | [], acc => by simp
  | c :: cs, acc => by
    simp only [List.foldl_cons]
    rw [mem_names_fold n cs, mem_names_upsertEntry]
    simp only [List.mem_cons, exists_eq_or_imp, entryOf]
    constructor
    · rintro ((h | h) | h)
      · exact Or.inr (Or.inl h.symm)
      · exact Or.inl h
      · exact Or.inr (Or.inr h)
    · rintro (h | h | h)
      · exact Or.inl (Or.inr h)
      · exact Or.inl (Or.inl h.symm)
      · exact Or.inr h

/-- Looking a name up in the aggregation: the entry of the last call with that name. -/
theorem find_fold (n : String) :
    ∀ (cs : List Call) (acc : List CallEntry),
      (cs.foldl (fun a c => upsertEntry (entryOf c) a) acc).find?
          (fun x => decide (x.Name = n)) =
        match cs.reverse.find? (fun c => decide (c.Name = n)) with
        | some c => some (entryOf c)
        | none => acc.find? (fun x => decide (x.Name = n))
  | [], acc => by simp
  | c :: cs, acc => by
    simp only [List.foldl_cons, List.reverse_cons, List.find?_append]
    rw [find_fold n cs, find_upsertEntry]
    cases hrev : cs.reverse.find? (fun c => decide (c.Name = n)) with
    | some d => simp
    | none =>
      by_cases hc : c.Name = n
      · simp [List.find?_cons, hc, entryOf]
      · simp [List.find?_cons, hc, entryOf]

theorem find_of_mem_nodup (n : String) :
    ∀ (l : List CallEntry) (e : CallEntry), (l.map (fun x => x.Name)).Nodup → e ∈ l →
      e.Name = n → l.find? (fun x => decide (x.Name = n)) = some e
  | [], _, _, h, _ => by cases h
  | a :: l, e, hnd, hmem, hn => by
    simp only [List.map_cons, List.nodup_cons] at hnd
    rcases List.mem_cons.1 hmem with rfl | h
    · simp [List.find?_cons, hn]
    · have hane : ¬ a.Name = n := by
        intro ha
        apply hnd.1
        rw [ha, ← hn]
        exact List.mem_map.2 ⟨e, h, rfl⟩
      simp only [List.find?_cons, hane, decide_False]
      exact find_of_mem_nodup n l e hnd.2 h hn

end Shai.Runtime

namespace Shai.Runtime

open Shai.Config

/-! ## The call aggregator: claims -/

/-- C13: for resolved resources whose calls are valid, `callEntriesFromResources` returns
exactly one entry per distinct call name that occurs, and the entry of a name carries the
command and the allowed-args of the last call with that name in application order: later
resource sets override earlier ones, and within a set later calls override earlier ones. -/
theorem callEntries_last_wins (L : GoLib) (resources : List ResolvedResource)
    (hv : ∀ c ∈ resourceCalls resources, callValid L c) :
    ∃ entries, callEntriesFromResources L resources = .ok entries ∧
      (entries.map (fun e => e.Name)).Nodup ∧
      (∀ n, n ∈ entries.map (fun e => e.Name) ↔ ∃ c ∈ resourceCalls resources, c.Name = n) ∧
      (∀ e ∈ entries, ∃ c,
        (resourceCalls resources).reverse.find? (fun c => decide (c.Name = e.Name)) = some c ∧
          e.Command = c.Command ∧ e.AllowedArgs = c.AllowedArgs) := by
  refine ⟨_, aggregateCalls_of_valid L _ [] hv, ?_, ?_, ?_⟩
  · exact nodup_names_fold _ [] List.nodup_nil
  · intro n
    rw [mem_names_fold]
    simp
  · intro e he
    have hnd := nodup_names_fold (resourceCalls resources) [] List.nodup_nil
    have hfind := find_of_mem_nodup e.Name _ e hnd he rfl
    rw [find_fold] at hfind
    cases hrev : (resourceCalls resources).reverse.find? (fun c => decide (c.Name = e.Name)) with
    | none =>
      rw [hrev] at hfind
      simp at hfind
    | some c =>
      rw [hrev] at hfind
      simp only [Option.some.injEq] at hfind
      exact ⟨c, rfl, by rw [← hfind]; rfl, by rw [← hfind]; rfl⟩

/-- Witness of C13 on the resources of `TestCallEntriesFromResources`: two entries, and
`git-sync` has the command of the later set. -/
theorem callEntries_last_wins_witness :
    ∃ entries, callEntriesFromResources sampleLib gitSyncResources = .ok entries ∧
      entries.map (fun e => (e.Name, e.Command)) =
        [("git-sync", "git pull"), ("deploy", "./scripts/deploy.sh")] := by
  obtain ⟨entries, h, _⟩ := callEntries_last_wins sampleLib gitSyncResources (by decide)
  have h' : callEntriesFromResources sampleLib gitSyncResources =
      .ok [⟨"git-sync", "", "git pull", "", none⟩,
        ⟨"deploy", "", "./scripts/deploy.sh", "^--env=(dev|prod)$",
          some ⟨"^--env=(dev|prod)$"⟩⟩] := rfl
  rw [h'] at h
  simp only [Except.ok.injEq] at h
  subst h
  exact ⟨_, h', rfl⟩

end Shai.Runtime
